import Mathlib

/-! Overview: verification development for the `egg` dependency-resolution library.

The embedding translates the resolution engine (`egg/hatcher.py`), the
declaration extractor and generator cleanup (`egg/util.py`), the marker type
(`egg/egg.py`) and the entry decorator (`egg/decorator.py`) into executable
Lean definitions.  Providers are identified by natural numbers; a `World`
maps a provider id to its declared parameter list and a semantic body.
Python's unbounded recursion is modelled with explicit fuel; exceptions are
modelled by the `ErrT` type together with the exact message strings built by
the source's format strings.
-/

/-- Values produced by providers; the claims are value-generic, so a
countable carrier suffices. -/
abbrev Value := Nat

/-- Translation of `egg/egg.py`'s `Egg`: a marker wrapping a provider
(identified by a `Nat` id) plus the `use_cache` flag (default true in the
source; defaults are irrelevant to the embedding). -/
structure Egg where
  dependency : Nat
  use_cache : Bool
deriving DecidableEq, Repr

/-- One metadata argument of an `Annotated[...]` hint: either an `Egg`
marker or some other object. -/
inductive AnnItem where
  | eggArg (e : Egg)
  | otherArg
deriving DecidableEq, Repr

/-- A parameter's type annotation as seen by `extract_eggs`: either a plain
(non-`Annotated`) hint or an `Annotated` hint with its metadata list
(`get_args(hint)[1:]`). -/
inductive Hint where
  | plainHint
  | annotated (metadata : List AnnItem)
deriving DecidableEq, Repr

/-- A parameter's declared default: absent (`inspect.Parameter.empty`), an
`Egg` marker, or some other value. -/
inductive DefaultV where
  | emptyDefault
  | eggDefault (e : Egg)
  | valueDefault
deriving DecidableEq, Repr

/-- One declared parameter: its name, its annotation as found in the type
hints (`hints.get(name)`, `none` when absent), and its default. -/
structure Param where
  name : String
  hint : Option Hint
  default : DefaultV
deriving DecidableEq, Repr

/-- Translation of `egg/util.py`'s `extract_eggs`: scan the metadata of an
`Annotated` hint for the first `Egg`; any other hint yields `none`. -/
def firstEgg : List AnnItem → Option Egg
  | [] => none
  | AnnItem.eggArg e :: _ => some e
  | AnnItem.otherArg :: rest => firstEgg rest

def extract_eggs : Option Hint → Option Egg
  | some (Hint.annotated metadata) => firstEgg metadata
  | _ => none

/-- The marker-lookup sequence shared by `decorator.py` and
`build_callable_kwargs`: `eggs = extract_eggs(hints.get(name))`, and if that
is `None` and the default is an `Egg`, use the default. -/
def findEgg (p : Param) : Option Egg :=
  match extract_eggs p.hint with
  | some e => some e
  | none =>
    match p.default with
    | DefaultV.eggDefault e => some e
    | _ => none

/-- All `Egg` markers declared by a parameter (annotation metadata first,
then the default), used to state world-wide hypotheses. -/
def eggsOf (p : Param) : List Egg :=
  (match p.hint with
   | some (Hint.annotated metadata) =>
     metadata.filterMap (fun it =>
       match it with
       | AnnItem.eggArg e => some e
       | AnnItem.otherArg => none)
   | _ => []) ++
  (match p.default with
   | DefaultV.eggDefault e => [e]
   | _ => [])

/-- A provider definition: its `__name__`, declared parameters, and a
semantic body.  The body receives the built kwargs and the number of prior
invocations of this provider (so effectful Python callables such as the
test-suite's counting provider are representable) and may raise. -/
structure ProviderDef where
  name : String
  params : List Param
  body : List (String × Value) → Nat → Except String Value

/-- The provider used for ids outside the declared world; it has no
parameters and always raises. -/
def dfltProv : ProviderDef :=
  ⟨"<undefined>", [], fun _ _ => Except.error "undefined provider"⟩

/-- A world of providers: the id `pid` names `provs[pid]`. -/
structure World where
  provs : List ProviderDef

def World.defs (w : World) (pid : Nat) : ProviderDef :=
  w.provs.getD pid dfltProv

def World.n (w : World) : Nat := w.provs.length

/-- Association-list read, mirroring Python `dict` lookup. -/
def aget {κ : Type} [DecidableEq κ] : List (κ × Value) → κ → Option Value
  | [], _ => none
  | (k1, v1) :: rest, k => if k1 = k then some v1 else aget rest k

/-- Association-list write, mirroring `d[k] = v`: replace in place or
append, keeping insertion order. -/
def aset {κ : Type} [DecidableEq κ] : List (κ × Value) → κ → Value → List (κ × Value)
  | [], k, v => [(k, v)]
  | (k1, v1) :: rest, k, v =>
    if k1 = k then (k, v) :: rest else (k1, v1) :: aset rest k v

def keysOf (l : List (String × Value)) : List String := l.map Prod.fst

/-- Python `set.add`. -/
def rinsert (p : Nat) (l : List Nat) : List Nat := if p ∈ l then l else p :: l

/-- Python `set.discard`. -/
def rerase (p : Nat) (l : List Nat) : List Nat := l.filter (fun q => decide (q ≠ p))

/-- Translation of the `Hatcher` state (`egg/hatcher.py`): the shared
`available` map, the provider-identity-keyed `cache`, the `resolving` set,
plus an invocation log recording each provider call (newest first), which
the source performs implicitly by calling the provider. -/
structure St where
  available : List (String × Value)
  cache : List (Nat × Value)
  resolving : List Nat
  invoked : List Nat
deriving DecidableEq, Repr

/-- Translation of the errors raised in `egg/hatcher.py` and
`egg/decorator.py`.  The source raises a single class `EggHatchingError`
(declared in `egg/exceptions.py`, absent from the sources; it is a plain
`Exception` subclass) with distinct format strings; the constructors record
the data each format string interpolates, and `errMsg` rebuilds the exact
message. -/
inductive ErrT where
  | circularE (nm : String)
  | missingE (param : String) (fname : String) (avail : List String)
  | wrappedE (param : String) (inner : ErrT)
  | providerE (msg : String)
deriving DecidableEq, Repr

def listKeysRepr (keys : List String) : String :=
  "[" ++ String.intercalate ", " keys ++ "]"

/-- The message of each error, following the source's format strings
(`\x27` is the apostrophe). -/
def errMsg : ErrT → String
  | ErrT.circularE nm => "Circular dependency: " ++ nm
  | ErrT.missingE p f ks =>
    "Missing \x27" ++ p ++ "\x27 for " ++ f ++ ". Available: " ++ listKeysRepr ks
  | ErrT.wrappedE p inner =>
    "Failed to hatch \x27" ++ p ++ "\x27: " ++ errMsg inner
  | ErrT.providerE m => m

/-- Whether an error is the decorator's wrapper (`Failed to hatch ...`). -/
def ErrT.isWrap : ErrT → Bool
  | ErrT.wrappedE _ _ => true
  | _ => false

/-- Outcome of `Hatcher.hatch`: a value, a raised error, or fuel
exhaustion (a model artifact standing for unbounded recursion). -/
inductive HOut where
  | ok (v : Value)
  | err (e : ErrT)
  | fuelOut
deriving DecidableEq, Repr

/-- Outcome of `Hatcher.build_callable_kwargs`. -/
inductive KOut where
  | ok (kw : List (String × Value))
  | err (e : ErrT)
  | fuelOut
deriving DecidableEq, Repr

/-- Translation of `Hatcher.is_circular_dependency`. -/
def is_circular_dependency (s : St) (dep : Nat) : Bool := decide (dep ∈ s.resolving)

/-- Translation of `Hatcher.is_cached`. -/
def is_cached (s : St) (egg : Egg) : Bool :=
  egg.use_cache && (aget s.cache egg.dependency).isSome

/-- The cache read guarded by `is_cached`. -/
def cacheLookup (egg : Egg) (s : St) : Option Value :=
  if egg.use_cache then aget s.cache egg.dependency else none

/-- Translation of `Hatcher.maybe_add_to_cache`. -/
def maybe_add_to_cache (s : St) (egg : Egg) (v : Value) : St :=
  if egg.use_cache then { s with cache := aset s.cache egg.dependency v } else s

/-- The `finally: self.resolving.discard(dep_func)` clause. -/
def finishResolving (p : Nat) (s : St) : St :=
  { s with resolving := rerase p s.resolving }

/-- Modelled from the spec: the Invocation Adapter `invoke` is imported by
`egg/hatcher.py` from `egg.util` but absent from the sources (the file only
contains the extended variant `invoke_and_get_cleanup`).  Per spec section
4.4 it calls the provider with the built kwargs, awaiting when the callable
is coroutine-style; at the value level the dispatch collapses to applying
the provider's semantic body.  The invocation log index supplies the number
of prior calls. -/
def invoke (w : World) (pid : Nat) (kw : List (String × Value)) (callIdx : Nat) :
    Except String Value :=
  (w.defs pid).body kw callIdx

/-- Translation of the loop body of `Hatcher.build_callable_kwargs`,
parameterized by the hatch function for nested markers (`hf`): skip
`self`/`cls`; a marker is hatched and its value published into `available`;
otherwise an `available` value is used; otherwise a parameter without a
default raises the missing-dependency error; otherwise the parameter is
omitted. -/
def buildWith (hf : Egg → St → HOut × St) (w : World) (pid : Nat) :
    List Param → St → KOut × St
  | [], s => (KOut.ok [], s)
  | param :: rest, s =>
    if param.name = "self" ∨ param.name = "cls" then
      buildWith hf w pid rest s
    else
      match findEgg param with
      | some egg =>
        match hf egg s with
        | (HOut.ok v, s1) =>
          let s2 : St := { s1 with available := aset s1.available param.name v }
          (match buildWith hf w pid rest s2 with
           | (KOut.ok kws, s3) => (KOut.ok ((param.name, v) :: kws), s3)
           | other => other)
        | (HOut.err e, s1) => (KOut.err e, s1)
        | (HOut.fuelOut, s1) => (KOut.fuelOut, s1)
      | none =>
        match aget s.available param.name with
        | some v =>
          (match buildWith hf w pid rest s with
           | (KOut.ok kws, s3) => (KOut.ok ((param.name, v) :: kws), s3)
           | other => other)
        | none =>
          match param.default with
          | DefaultV.emptyDefault =>
            (KOut.err (ErrT.missingE param.name (w.defs pid).name (keysOf s.available)), s)
          | _ => buildWith hf w pid rest s

/-- Translation of `Hatcher.hatch`: circular check, cache check, then add
to `resolving`, build kwargs, invoke, maybe cache, and unconditionally
discard from `resolving` on every exit path.  Nested resolutions receive
one unit of fuel less; real Python recursion corresponds to any
sufficiently large fuel. -/
def hatch (w : World) : Nat → Egg → St → HOut × St
  | 0, _, s => (HOut.fuelOut, s)
  | fuel + 1, egg, s =>
    let p := egg.dependency
    if is_circular_dependency s p then
      (HOut.err (ErrT.circularE (w.defs p).name), s)
    else
      match cacheLookup egg s with
      | some v => (HOut.ok v, s)
      | none =>
        let s1 : St := { s with resolving := rinsert p s.resolving }
        match buildWith (hatch w fuel) w p (w.defs p).params s1 with
        | (KOut.ok kw, s2) =>
          match invoke w p kw (s2.invoked.count p) with
          | Except.ok v =>
            let s3 : St := { s2 with invoked := p :: s2.invoked }
            (HOut.ok v, finishResolving p (maybe_add_to_cache s3 egg v))
          | Except.error m =>
            (HOut.err (ErrT.providerE m),
             finishResolving p { s2 with invoked := p :: s2.invoked })
        | (KOut.err e, s2) => (HOut.err e, finishResolving p s2)
        | (KOut.fuelOut, s2) => (HOut.fuelOut, finishResolving p s2)

/-- Translation of `Hatcher.build_callable_kwargs` proper: the loop with
nested markers resolved by `hatch` at the given fuel. -/
def build_callable_kwargs (w : World) (fuel : Nat) (pid : Nat)
    (params : List Param) (s : St) : KOut × St :=
  buildWith (hatch w fuel) w pid params s

/-- Outcome of the decorator's dependency-resolution loop. -/
inductive DOut where
  | ok (kw : List (String × Value))
  | err (e : ErrT)
  | fuelOut
deriving DecidableEq, Repr

/-- Translation of the resolution loop of `async_wrapper`
(`egg/decorator.py`): for each target parameter not already bound in
`kwargs` or `available`, find its marker; on success store the hatched
value in `kwargs`, on failure wrap the exception once as
`EggHatchingError("Failed to hatch '<name>': ...")`. -/
def hatch_target_params (w : World) (fuel : Nat) :
    List Param → List (String × Value) → St → DOut × St
  | [], kwargs, s => (DOut.ok kwargs, s)
  | p :: rest, kwargs, s =>
    if (aget kwargs p.name).isSome || (aget s.available p.name).isSome then
      hatch_target_params w fuel rest kwargs s
    else
      match findEgg p with
      | none => hatch_target_params w fuel rest kwargs s
      | some egg =>
        match hatch w fuel egg s with
        | (HOut.ok v, s1) => hatch_target_params w fuel rest (aset kwargs p.name v) s1
        | (HOut.err e, s1) => (DOut.err (ErrT.wrappedE p.name e), s1)
        | (HOut.fuelOut, s1) => (DOut.fuelOut, s1)

/-- Translation of `build_available_values_from_args_kwargs`
(`egg/util.py`): positional arguments map by position to parameter names,
then keyword arguments overlay by name. -/
def zipNames : List String → List Value → List (String × Value)
  | _, [] => []
  | [], _ => []
  | nm :: names, a :: as2 => (nm, a) :: zipNames names as2

def build_available_values_from_args_kwargs (args : List Value)
    (kwargs : List (String × Value)) (param_names : List String) :
    List (String × Value) :=
  List.foldl (fun acc kv => aset acc kv.1 kv.2) (zipNames param_names args) kwargs

/-- The decorated target: its declared parameters and a semantic body
receiving the original positional arguments and the augmented kwargs. -/
structure Target where
  params : List Param
  body : List Value → List (String × Value) → Except String Value

/-- Outcome of one call of the decorated wrapper. -/
inductive WOut where
  | ok (v : Value)
  | resolutionErr (e : ErrT)
  | targetErr (msg : String)
  | fuelOut
deriving DecidableEq, Repr

/-- The fresh `Hatcher` state for one top-level call. -/
def st0 (avail : List (String × Value)) : St := ⟨avail, [], [], []⟩

/-- The wrapper's initial `available` map and `Hatcher` state. -/
def wrapperInit (t : Target) (args : List Value)
    (kwargs : List (String × Value)) : St :=
  st0 (build_available_values_from_args_kwargs args kwargs (t.params.map Param.name))

/-- Translation of `async_wrapper` (`egg/decorator.py`): build `available`
from the call arguments, resolve the target's declared markers, then call
the target with the original positional arguments and the augmented
kwargs.  Target-raised exceptions propagate as the target's own
(`WOut.targetErr`), not as resolution failures. -/
def async_wrapper (w : World) (fuel : Nat) (t : Target) (args : List Value)
    (kwargs : List (String × Value)) : WOut × St :=
  match hatch_target_params w fuel t.params kwargs (wrapperInit t args kwargs) with
  | (DOut.ok kw, s1) =>
    match t.body args kw with
    | Except.ok v => (WOut.ok v, s1)
    | Except.error m => (WOut.targetErr m, s1)
  | (DOut.err e, s1) => (WOut.resolutionErr e, s1)
  | (DOut.fuelOut, s1) => (WOut.fuelOut, s1)

/-- One step of a generator used as a cleanup handle: the teardown step
either finishes (raising the iteration-exhausted signal), yields another
value, or raises. -/
inductive GenStep where
  | stops
  | yields (v : Value)
  | raises (msg : String)
deriving DecidableEq, Repr

/-- A live generator handed back as a cleanup handle: sync or async, the
outcome of its next step, and whether that step outruns the timeout. -/
structure Gen where
  isAsync : Bool
  step : GenStep
  timesOut : Bool
deriving DecidableEq, Repr

/-- Translation of `run_sync_cleanup` (`egg/util.py`): advance the sync
generator once, swallowing `StopIteration`; any other exception
propagates. -/
def run_sync_cleanup (g : Gen) : Except String Unit :=
  match g.step with
  | GenStep.stops => Except.ok ()
  | GenStep.yields _ => Except.ok ()
  | GenStep.raises m => Except.error m

/-- The exceptions the outer handler of `close_generator` distinguishes. -/
inductive InnerExc where
  | timedOutExc
  | otherExc (msg : String)
deriving DecidableEq, Repr

/-- Result of `close_generator`: how many teardown steps were attempted and
what was logged. -/
structure CloseRes where
  steps : Nat
  logs : List String
deriving DecidableEq, Repr

/-- Translation of `close_generator` (`egg/util.py`): no-op on `None`;
otherwise advance the generator one step under the timeout, treating the
iteration-exhausted signal as success and converting a timeout or any other
exception into a log entry.  An `Except.error` result would model the
function raising to its caller; every branch of the source returns
normally. -/
def close_generator (og : Option Gen) (timeout : Nat) : Except String CloseRes :=
  match og with
  | none => Except.ok ⟨0, []⟩
  | some g =>
    let inner : Except InnerExc Unit :=
      if g.isAsync then
        if g.timesOut then Except.error InnerExc.timedOutExc
        else
          match g.step with
          | GenStep.stops => Except.ok ()
          | GenStep.yields _ => Except.ok ()
          | GenStep.raises m => Except.error (InnerExc.otherExc m)
      else
        if g.timesOut then Except.error InnerExc.timedOutExc
        else
          match run_sync_cleanup g with
          | Except.ok _ => Except.ok ()
          | Except.error m => Except.error (InnerExc.otherExc m)
    match inner with
    | Except.ok _ => Except.ok ⟨1, []⟩
    | Except.error InnerExc.timedOutExc =>
      Except.ok ⟨1, ["Cleanup timed out after " ++ toString timeout ++ "s"]⟩
    | Except.error (InnerExc.otherExc m) =>
      Except.ok ⟨1, ["Error during cleanup: " ++ m]⟩

/-- Every marker declared anywhere in the world has `use_cache = true`. -/
def AllCachedL (w : World) : Prop :=
  ∀ pd ∈ w.provs, ∀ p ∈ pd.params, ∀ e ∈ eggsOf p, e.use_cache = true

/-- Every marker declared anywhere in the world names a provider inside the
world. -/
def WFL (w : World) : Prop :=
  ∀ pd ∈ w.provs, ∀ p ∈ pd.params, ∀ e ∈ eggsOf p, e.dependency < w.n

/-- Markers of a parameter list all cache-enabled. -/
def ParamsCached (ps : List Param) : Prop :=
  ∀ p ∈ ps, ∀ e ∈ eggsOf p, e.use_cache = true

/-- Markers of a parameter list all in-world. -/
def ParamsWF (w : World) (ps : List Param) : Prop :=
  ∀ p ∈ ps, ∀ e ∈ eggsOf p, e.dependency < w.n

/-- The invariant behind single invocation of cached providers: every
provider has been invoked at most once, and an invoked provider is
cached. -/
def OnceInv (s : St) : Prop :=
  ∀ q : Nat, s.invoked.count q ≤ 1 ∧
    (1 ≤ s.invoked.count q → (aget s.cache q).isSome = true)

/-! Part: Basic lemmas about the state primitives -/

theorem aget_aset_self {κ : Type} [DecidableEq κ] (l : List (κ × Value)) (k : κ) (v : Value) :
    aget (aset l k v) k = some v := by
  induction l with
  | nil => simp [aget, aset]
  | cons kv rest ih =>
    obtain ⟨k1, v1⟩ := kv
    by_cases h : k1 = k
    · subst h; simp [aget, aset]
    · simp [aget, aset, h, ih]

theorem aget_aset_ne {κ : Type} [DecidableEq κ] (l : List (κ × Value)) (k k2 : κ) (v : Value)
    (h : k ≠ k2) : aget (aset l k v) k2 = aget l k2 := by
  induction l with
  | nil => simp [aget, aset, h]
  | cons kv rest ih =>
    obtain ⟨k1, v1⟩ := kv
    by_cases h1 : k1 = k
    · subst h1; simp [aget, aset, h]
    · simp only [aget, aset, if_neg h1]
      split
      · rfl
      · exact ih

theorem aget_isSome_aset {κ : Type} [DecidableEq κ] (l : List (κ × Value)) (k k2 : κ) (v : Value)
    (h : (aget l k2).isSome = true) : (aget (aset l k v) k2).isSome = true := by
  by_cases hk : k = k2
  · subst hk; simp [aget_aset_self]
  · rw [aget_aset_ne l k k2 v hk]; exact h

theorem rerase_of_not_mem (p : Nat) (l : List Nat) (h : p ∉ l) : rerase p l = l := by
  unfold rerase
  apply List.filter_eq_self.mpr
  intro a ha
  simp only [decide_eq_true_eq]
  intro hap
  exact h (hap ▸ ha)

theorem rerase_rinsert (p : Nat) (l : List Nat) (h : p ∉ l) :
    rerase p (rinsert p l) = l := by
  unfold rinsert
  rw [if_neg h]
  have h1 : rerase p (p :: l) = rerase p l := by simp [rerase]
  rw [h1, rerase_of_not_mem p l h]

theorem mem_rinsert_self (p : Nat) (l : List Nat) : p ∈ rinsert p l := by
  unfold rinsert; split
  · assumption
  · exact List.mem_cons_self p l

theorem mem_rinsert_of_mem (p q : Nat) (l : List Nat) (h : q ∈ l) : q ∈ rinsert p l := by
  unfold rinsert; split
  · exact h
  · exact List.mem_cons_of_mem p h

/-! Part: Field projections of the state combinators -/

theorem maybe_add_resolving (s : St) (egg : Egg) (v : Value) :
    (maybe_add_to_cache s egg v).resolving = s.resolving := by
  unfold maybe_add_to_cache; split <;> rfl

theorem maybe_add_available (s : St) (egg : Egg) (v : Value) :
    (maybe_add_to_cache s egg v).available = s.available := by
  unfold maybe_add_to_cache; split <;> rfl

theorem maybe_add_invoked (s : St) (egg : Egg) (v : Value) :
    (maybe_add_to_cache s egg v).invoked = s.invoked := by
  unfold maybe_add_to_cache; split <;> rfl

theorem finish_cache (p : Nat) (s : St) : (finishResolving p s).cache = s.cache := rfl

theorem finish_available (p : Nat) (s : St) : (finishResolving p s).available = s.available := rfl

theorem finish_invoked (p : Nat) (s : St) : (finishResolving p s).invoked = s.invoked := rfl

theorem is_circular_iff (s : St) (p : Nat) :
    is_circular_dependency s p = true ↔ p ∈ s.resolving := by
  simp [is_circular_dependency]

theorem cacheLookup_of_true (egg : Egg) (s : St) (h : egg.use_cache = true) :
    cacheLookup egg s = aget s.cache egg.dependency := by
  unfold cacheLookup; rw [if_pos h]

theorem cacheLookup_of_false (egg : Egg) (s : St) (h : egg.use_cache = false) :
    cacheLookup egg s = none := by
  unfold cacheLookup; rw [h]; rfl

/-! Part: World bridges -/

theorem getD_mem_or_dflt (l : List ProviderDef) (pid : Nat) :
    l.getD pid dfltProv ∈ l ∨ l.getD pid dfltProv = dfltProv := by
  induction l generalizing pid with
  | nil => right; cases pid <;> rfl
  | cons a t ih =>
    cases pid with
    | zero => left; exact List.mem_cons_self a t
    | succ k =>
      rcases ih k with h | h
      · left; exact List.mem_cons_of_mem a h
      · right; exact h

theorem firstEgg_mem_filterMap (metadata : List AnnItem) (e : Egg)
    (h : firstEgg metadata = some e) :
    e ∈ metadata.filterMap (fun it =>
      match it with
      | AnnItem.eggArg e2 => some e2
      | AnnItem.otherArg => none) := by
  induction metadata with
  | nil => simp [firstEgg] at h
  | cons it rest ih =>
    rcases it with e3 | _
    · simp [firstEgg] at h
      subst h
      simp
    · simp only [firstEgg] at h
      simp only [List.filterMap_cons]
      exact ih h

theorem findEgg_mem_eggsOf (p : Param) (e : Egg) (h : findEgg p = some e) :
    e ∈ eggsOf p := by
  obtain ⟨nm, hint, d⟩ := p
  unfold findEgg extract_eggs at h
  unfold eggsOf
  rcases hint with _ | hint
  · simp only at h ⊢
    rcases d with _ | e2 | _ <;> simp_all
  · rcases hint with _ | metadata
    · simp only at h ⊢
      rcases d with _ | e2 | _ <;> simp_all
    · simp only at h ⊢
      rcases hfe : firstEgg metadata with _ | e1
      · rw [hfe] at h
        rcases d with _ | e2 | _ <;> simp_all
      · rw [hfe] at h
        simp only [Option.some.injEq] at h
        subst h
        exact List.mem_append_left _ (firstEgg_mem_filterMap metadata e1 hfe)

theorem paramsCached_of_allCachedL (w : World) (pid : Nat) (h : AllCachedL w) :
    ParamsCached (w.defs pid).params := by
  intro p hp e he
  unfold World.defs at hp
  rcases getD_mem_or_dflt w.provs pid with hm | hd
  · exact h _ hm p hp e he
  · rw [hd] at hp
    simp [dfltProv] at hp

theorem paramsWF_of_WFL (w : World) (pid : Nat) (h : WFL w) :
    ParamsWF w (w.defs pid).params := by
  intro p hp e he
  unfold World.defs at hp
  rcases getD_mem_or_dflt w.provs pid with hm | hd
  · exact h _ hm p hp e he
  · rw [hd] at hp
    simp [dfltProv] at hp

/-! Part: Scoped acquisition: `resolving` is restored on every exit path -/

theorem buildWith_resolving_eq (hf : Egg → St → HOut × St) (w : World) (pid : Nat)
    (hhf : ∀ e s, ((hf e s).2).resolving = s.resolving) :
    ∀ params s, ((buildWith hf w pid params s).2).resolving = s.resolving := by
  intro params
  induction params with
  | nil => intro s; rfl
  | cons param rest ih =>
    intro s
    simp only [buildWith]
    split
    · exact ih s
    · split
      · next egg hegg =>
        rcases hf1 : hf egg s with ⟨r1, s1⟩
        have hs1 : s1.resolving = s.resolving := by
          have := hhf egg s
          rw [hf1] at this
          exact this
        rcases r1 with v | e | _
        · simp only
          rcases hb : buildWith hf w pid rest { s1 with available := aset s1.available param.name v } with ⟨r3, s3⟩
          have hs3 : s3.resolving = s1.resolving := by
            have := ih { s1 with available := aset s1.available param.name v }
            rw [hb] at this
            exact this
          rcases r3 with kws | e | _ <;> simp only <;> rw [hs3, hs1]
        · simp only [hs1]
        · simp only [hs1]
      · split
        · next v hv =>
          rcases hb : buildWith hf w pid rest s with ⟨r3, s3⟩
          have hs3 : s3.resolving = s.resolving := by
            have := ih s
            rw [hb] at this
            exact this
          rcases r3 with kws | e | _ <;> simp only <;> rw [hs3]
        · split
          · rfl
          · exact ih s

theorem hatch_resolving_eq (w : World) :
    ∀ fuel egg s, ((hatch w fuel egg s).2).resolving = s.resolving := by
  intro fuel
  induction fuel with
  | zero => intro egg s; rfl
  | succ f ih =>
    intro egg s
    simp only [hatch]
    split
    · rfl
    · next hnc =>
      have hpn : egg.dependency ∉ s.resolving := by
        intro hmem
        exact hnc ((is_circular_iff s egg.dependency).mpr hmem)
      split
      · rfl
      · rcases hb : buildWith (hatch w f) w egg.dependency (w.defs egg.dependency).params
          { s with resolving := rinsert egg.dependency s.resolving } with ⟨r2, s2⟩
        have hs2 : s2.resolving = rinsert egg.dependency s.resolving := by
          have := buildWith_resolving_eq (hatch w f) w egg.dependency (fun e s => ih e s)
            (w.defs egg.dependency).params { s with resolving := rinsert egg.dependency s.resolving }
          rw [hb] at this
          exact this
        rcases r2 with kw | e | _
        · simp only
          split
          · simp only [finishResolving, maybe_add_resolving]
            show rerase egg.dependency _ = s.resolving
            rw [show ({ s2 with invoked := egg.dependency :: s2.invoked } : St).resolving = s2.resolving from rfl,
              hs2, rerase_rinsert _ _ hpn]
          · simp only [finishResolving]
            show rerase egg.dependency _ = s.resolving
            rw [show ({ s2 with invoked := egg.dependency :: s2.invoked } : St).resolving = s2.resolving from rfl,
              hs2, rerase_rinsert _ _ hpn]
        · simp only [finishResolving]
          show rerase egg.dependency s2.resolving = s.resolving
          rw [hs2, rerase_rinsert _ _ hpn]
        · simp only [finishResolving]
          show rerase egg.dependency s2.resolving = s.resolving
          rw [hs2, rerase_rinsert _ _ hpn]

/-! Part: Monotonicity: `available` and `cache` keys are never removed -/

/-- Keys present in `available` and `cache` survive a state transition. -/
def StMono (s s2 : St) : Prop :=
  (∀ k, (aget s.available k).isSome = true → (aget s2.available k).isSome = true) ∧
  (∀ q, (aget s.cache q).isSome = true → (aget s2.cache q).isSome = true)

theorem stMono_refl (s : St) : StMono s s := ⟨fun _ h => h, fun _ h => h⟩

theorem stMono_trans {s1 s2 s3 : St} (h1 : StMono s1 s2) (h2 : StMono s2 s3) :
    StMono s1 s3 :=
  ⟨fun k hk => h2.1 k (h1.1 k hk), fun q hq => h2.2 q (h1.2 q hq)⟩

theorem buildWith_stMono (hf : Egg → St → HOut × St) (w : World) (pid : Nat)
    (hhf : ∀ e s, StMono s ((hf e s).2)) :
    ∀ params s, StMono s ((buildWith hf w pid params s).2) := by
  intro params
  induction params with
  | nil => intro s; exact stMono_refl s
  | cons param rest ih =>
    intro s
    simp only [buildWith]
    split
    · exact ih s
    · split
      · next egg hegg =>
        rcases hf1 : hf egg s with ⟨r1, s1⟩
        have hm1 : StMono s s1 := by
          have := hhf egg s
          rw [hf1] at this
          exact this
        rcases r1 with v | e | _
        · simp only
          have hm2 : StMono s1 { s1 with available := aset s1.available param.name v } := by
            refine ⟨fun k hk => ?_, fun q hq => hq⟩
            exact aget_isSome_aset s1.available param.name k v hk
          rcases hb : buildWith hf w pid rest { s1 with available := aset s1.available param.name v }
            with ⟨r3, s3⟩
          have hm3 : StMono { s1 with available := aset s1.available param.name v } s3 := by
            have := ih { s1 with available := aset s1.available param.name v }
            rw [hb] at this
            exact this
          rcases r3 with kws | e | _ <;> simp only <;>
            exact stMono_trans hm1 (stMono_trans hm2 hm3)
        · simp only; exact hm1
        · simp only; exact hm1
      · split
        · next v hv =>
          rcases hb : buildWith hf w pid rest s with ⟨r3, s3⟩
          have hm3 : StMono s s3 := by
            have := ih s
            rw [hb] at this
            exact this
          rcases r3 with kws | e | _ <;> simp only <;> exact hm3
        · split
          · exact stMono_refl s
          · exact ih s

theorem hatch_stMono (w : World) :
    ∀ fuel egg s, StMono s ((hatch w fuel egg s).2) := by
  intro fuel
  induction fuel with
  | zero => intro egg s; exact stMono_refl s
  | succ f ih =>
    intro egg s
    simp only [hatch]
    split
    · exact stMono_refl s
    · split
      · exact stMono_refl s
      · rcases hb : buildWith (hatch w f) w egg.dependency (w.defs egg.dependency).params
          { s with resolving := rinsert egg.dependency s.resolving } with ⟨r2, s2⟩
        have hm2 : StMono s s2 := by
          have := buildWith_stMono (hatch w f) w egg.dependency ih
            (w.defs egg.dependency).params { s with resolving := rinsert egg.dependency s.resolving }
          rw [hb] at this
          exact this
        rcases r2 with kw | e | _
        · simp only
          split
          · next v hv =>
            have hstep : StMono s2 (finishResolving egg.dependency
                (maybe_add_to_cache { s2 with invoked := egg.dependency :: s2.invoked } egg v)) := by
              constructor
              · intro k hk
                rw [finish_available, maybe_add_available]
                exact hk
              · intro q hq
                rw [finish_cache]
                unfold maybe_add_to_cache
                split
                · exact aget_isSome_aset s2.cache egg.dependency q v hq
                · exact hq
            exact stMono_trans hm2 hstep
          · exact hm2
        · simp only; exact hm2
        · simp only; exact hm2

/-! Part: Providers on the resolving stack are untouched: no invocation, no
cache write for a provider while it is being resolved -/

theorem buildWith_frozen (hf : Egg → St → HOut × St) (w : World) (pid : Nat)
    (hres : ∀ e s, ((hf e s).2).resolving = s.resolving)
    (hfr : ∀ e s p0, p0 ∈ s.resolving →
      aget ((hf e s).2).cache p0 = aget s.cache p0 ∧
      ((hf e s).2).invoked.count p0 = s.invoked.count p0) :
    ∀ params s p0, p0 ∈ s.resolving →
      aget ((buildWith hf w pid params s).2).cache p0 = aget s.cache p0 ∧
      ((buildWith hf w pid params s).2).invoked.count p0 = s.invoked.count p0 := by
  intro params
  induction params with
  | nil => intro s p0 _; exact ⟨rfl, rfl⟩
  | cons param rest ih =>
    intro s p0 hp0
    simp only [buildWith]
    split
    · exact ih s p0 hp0
    · split
      · next egg hegg =>
        rcases hf1 : hf egg s with ⟨r1, s1⟩
        have h1 : aget s1.cache p0 = aget s.cache p0 ∧ s1.invoked.count p0 = s.invoked.count p0 := by
          have := hfr egg s p0 hp0
          rw [hf1] at this
          exact this
        have hres1 : s1.resolving = s.resolving := by
          have := hres egg s
          rw [hf1] at this
          exact this
        rcases r1 with v | e | _
        · simp only
          rcases hb : buildWith hf w pid rest { s1 with available := aset s1.available param.name v }
            with ⟨r3, s3⟩
          have h3 : aget s3.cache p0 = aget s1.cache p0 ∧ s3.invoked.count p0 = s1.invoked.count p0 := by
            have := ih { s1 with available := aset s1.available param.name v } p0
              (by show p0 ∈ s1.resolving; rw [hres1]; exact hp0)
            rw [hb] at this
            exact this
          rcases r3 with kws | e | _ <;> simp only <;>
            exact ⟨h3.1.trans h1.1, h3.2.trans h1.2⟩
        · simp only; exact h1
        · simp only; exact h1
      · split
        · next v hv =>
          rcases hb : buildWith hf w pid rest s with ⟨r3, s3⟩
          have h3 := ih s p0 hp0
          rw [hb] at h3
          rcases r3 with kws | e | _ <;> simp only <;> exact h3
        · split
          · exact ⟨rfl, rfl⟩
          · exact ih s p0 hp0

theorem hatch_frozen (w : World) :
    ∀ fuel egg s p0, p0 ∈ s.resolving →
      aget ((hatch w fuel egg s).2).cache p0 = aget s.cache p0 ∧
      ((hatch w fuel egg s).2).invoked.count p0 = s.invoked.count p0 := by
  intro fuel
  induction fuel with
  | zero => intro egg s p0 _; exact ⟨rfl, rfl⟩
  | succ f ih =>
    intro egg s p0 hp0
    simp only [hatch]
    split
    · exact ⟨rfl, rfl⟩
    · next hnc =>
      have hpn : egg.dependency ∉ s.resolving := by
        intro hmem
        exact hnc ((is_circular_iff s egg.dependency).mpr hmem)
      have hne : egg.dependency ≠ p0 := by
        intro heq
        exact hpn (heq ▸ hp0)
      split
      · exact ⟨rfl, rfl⟩
      · rcases hb : buildWith (hatch w f) w egg.dependency (w.defs egg.dependency).params
          { s with resolving := rinsert egg.dependency s.resolving } with ⟨r2, s2⟩
        have h2 : aget s2.cache p0 = aget s.cache p0 ∧ s2.invoked.count p0 = s.invoked.count p0 := by
          have := buildWith_frozen (hatch w f) w egg.dependency (hatch_resolving_eq w f) (ih)
            (w.defs egg.dependency).params { s with resolving := rinsert egg.dependency s.resolving }
            p0 (mem_rinsert_of_mem egg.dependency p0 s.resolving hp0)
          rw [hb] at this
          exact this
        have hcnt : (egg.dependency :: s2.invoked).count p0 = s2.invoked.count p0 := by
          rw [List.count_cons]
          simp [hne]
        rcases r2 with kw | e | _
        · simp only
          split
          · constructor
            · show aget (maybe_add_to_cache { s2 with invoked := egg.dependency :: s2.invoked } egg _).cache p0 = _
              unfold maybe_add_to_cache
              split
              · simp only
                rw [aget_aset_ne s2.cache egg.dependency p0 _ hne]
                exact h2.1
              · exact h2.1
            · show (maybe_add_to_cache { s2 with invoked := egg.dependency :: s2.invoked } egg _).invoked.count p0 = _
              rw [maybe_add_invoked]
              show (egg.dependency :: s2.invoked).count p0 = _
              rw [hcnt]
              exact h2.2
          · refine ⟨h2.1, ?_⟩
            show (egg.dependency :: s2.invoked).count p0 = _
            rw [hcnt]
            exact h2.2
        · simp only; exact h2
        · simp only; exact h2

/-! Part: Cache entries are stable once written (all markers cache-enabled) -/

theorem buildWith_cache_stable (hf : Egg → St → HOut × St) (w : World) (pid : Nat)
    (hstab : ∀ e s k v, e.use_cache = true → aget s.cache k = some v →
      aget ((hf e s).2).cache k = some v) :
    ∀ params, ParamsCached params → ∀ s k v, aget s.cache k = some v →
      aget ((buildWith hf w pid params s).2).cache k = some v := by
  intro params
  induction params with
  | nil => intro _ s k v hk; exact hk
  | cons param rest ih =>
    intro hpc s k v hk
    have hpcr : ParamsCached rest := fun p hp e he => hpc p (List.mem_cons_of_mem param hp) e he
    simp only [buildWith]
    split
    · exact ih hpcr s k v hk
    · split
      · next egg hegg =>
        have huc : egg.use_cache = true :=
          hpc param (List.mem_cons_self param rest) egg (findEgg_mem_eggsOf param egg hegg)
        rcases hf1 : hf egg s with ⟨r1, s1⟩
        have h1 : aget s1.cache k = some v := by
          have := hstab egg s k v huc hk
          rw [hf1] at this
          exact this
        rcases r1 with v1 | e | _
        · simp only
          rcases hb : buildWith hf w pid rest { s1 with available := aset s1.available param.name v1 }
            with ⟨r3, s3⟩
          have h3 : aget s3.cache k = some v := by
            have := ih hpcr { s1 with available := aset s1.available param.name v1 } k v h1
            rw [hb] at this
            exact this
          rcases r3 with kws | e | _ <;> simp only <;> exact h3
        · simp only; exact h1
        · simp only; exact h1
      · split
        · next v1 hv =>
          rcases hb : buildWith hf w pid rest s with ⟨r3, s3⟩
          have h3 : aget s3.cache k = some v := by
            have := ih hpcr s k v hk
            rw [hb] at this
            exact this
          rcases r3 with kws | e | _ <;> simp only <;> exact h3
        · split
          · exact hk
          · exact ih hpcr s k v hk

theorem hatch_cache_stable (w : World) (hAC : AllCachedL w) :
    ∀ fuel egg s k v, egg.use_cache = true → aget s.cache k = some v →
      aget ((hatch w fuel egg s).2).cache k = some v := by
  intro fuel
  induction fuel with
  | zero => intro egg s k v _ hk; exact hk
  | succ f ih =>
    intro egg s k v huc hk
    simp only [hatch]
    split
    · exact hk
    · split
      · exact hk
      · next hmiss =>
        have hnone : aget s.cache egg.dependency = none := by
          have hcl := cacheLookup_of_true egg s huc
          rw [hmiss] at hcl
          exact hcl.symm
        have hne : k ≠ egg.dependency := by
          intro heq
          rw [heq, hnone] at hk
          cases hk
        rcases hb : buildWith (hatch w f) w egg.dependency (w.defs egg.dependency).params
          { s with resolving := rinsert egg.dependency s.resolving } with ⟨r2, s2⟩
        have h2 : aget s2.cache k = some v := by
          have := buildWith_cache_stable (hatch w f) w egg.dependency ih
            (w.defs egg.dependency).params
            (paramsCached_of_allCachedL w egg.dependency hAC)
            { s with resolving := rinsert egg.dependency s.resolving } k v hk
          rw [hb] at this
          exact this
        rcases r2 with kw | e | _
        · simp only
          split
          · next v2 hv2 =>
            show aget (finishResolving egg.dependency
              (maybe_add_to_cache { s2 with invoked := egg.dependency :: s2.invoked } egg v2)).cache
                k = some v
            have hmac : (maybe_add_to_cache { s2 with invoked := egg.dependency :: s2.invoked }
                egg v2).cache = aset s2.cache egg.dependency v2 := by
              unfold maybe_add_to_cache
              rw [huc]
              rfl
            rw [finish_cache, hmac,
              aget_aset_ne s2.cache egg.dependency k v2 (fun hx => hne hx.symm)]
            exact h2
          · exact h2
        · simp only; exact h2
        · simp only; exact h2

/-! Part: Each provider is invoked at most once when every marker caches -/

theorem buildWith_onceInv (hf : Egg → St → HOut × St) (w : World) (pid : Nat)
    (hok : ∀ e s v s1, e.use_cache = true → hf e s = (HOut.ok v, s1) → OnceInv s → OnceInv s1) :
    ∀ params, ParamsCached params → ∀ s kws s3,
      buildWith hf w pid params s = (KOut.ok kws, s3) → OnceInv s → OnceInv s3 := by
  intro params
  induction params with
  | nil =>
    intro _ s kws s3 hbw hinv
    simp only [buildWith] at hbw
    injection hbw with h1 h2
    subst h2
    exact hinv
  | cons param rest ih =>
    intro hpc s kws s3 hbw hinv
    have hpcr : ParamsCached rest := fun p hp e he => hpc p (List.mem_cons_of_mem param hp) e he
    simp only [buildWith] at hbw
    split at hbw
    · exact ih hpcr s kws s3 hbw hinv
    · split at hbw
      · next egg hegg =>
        have huc : egg.use_cache = true :=
          hpc param (List.mem_cons_self param rest) egg (findEgg_mem_eggsOf param egg hegg)
        rcases hf1 : hf egg s with ⟨r1, s1⟩
        rw [hf1] at hbw
        rcases r1 with v1 | e | _
        · simp only at hbw
          have hinv1 : OnceInv s1 := hok egg s v1 s1 huc hf1 hinv
          rcases hb2 : buildWith hf w pid rest { s1 with available := aset s1.available param.name v1 }
            with ⟨r3, s4⟩
          rw [hb2] at hbw
          rcases r3 with kws2 | e | _
          · simp only at hbw
            injection hbw with h1 h2
            subst h2
            exact ih hpcr _ kws2 s4 hb2 hinv1
          · simp at hbw
          · simp at hbw
        · simp at hbw
        · simp at hbw
      · split at hbw
        · next v1 hv1 =>
          rcases hb2 : buildWith hf w pid rest s with ⟨r3, s4⟩
          rw [hb2] at hbw
          rcases r3 with kws2 | e | _
          · simp only at hbw
            injection hbw with h1 h2
            subst h2
            exact ih hpcr s kws2 s4 hb2 hinv
          · simp at hbw
          · simp at hbw
        · split at hbw
          · simp at hbw
          · exact ih hpcr s kws s3 hbw hinv

theorem hatch_onceInv (w : World) (hAC : AllCachedL w) :
    ∀ fuel egg s v s2, egg.use_cache = true → hatch w fuel egg s = (HOut.ok v, s2) →
      OnceInv s → OnceInv s2 := by
  intro fuel
  induction fuel with
  | zero => intro egg s v s2 _ h _; simp [hatch] at h
  | succ f ih =>
    intro egg s v s2 huc h hinv
    simp only [hatch] at h
    split at h
    · simp at h
    · next hnc =>
      split at h
      · next v0 hv0 =>
        injection h with h1 h2
        subst h2
        exact hinv
      · next hmiss =>
        have hnone : aget s.cache egg.dependency = none := by
          have hcl := cacheLookup_of_true egg s huc
          rw [hmiss] at hcl
          exact hcl.symm
        have hcnt0 : s.invoked.count egg.dependency = 0 := by
          rcases hinv egg.dependency with ⟨hle, hcached⟩
          by_contra hne0
          have h1 : 1 ≤ s.invoked.count egg.dependency := by omega
          have hsome := hcached h1
          rw [hnone] at hsome
          simp at hsome
        rcases hb : buildWith (hatch w f) w egg.dependency (w.defs egg.dependency).params
          { s with resolving := rinsert egg.dependency s.resolving } with ⟨r2, s5⟩
        rw [hb] at h
        rcases r2 with kw | e | _
        · simp only at h
          rcases hiv : invoke w egg.dependency kw (s5.invoked.count egg.dependency) with m | v2
          · rw [hiv] at h
            simp at h
          · rw [hiv] at h
            injection h with h1 h2
            injection h1 with h1
            subst h1
            subst h2
            have hinv2 : OnceInv s5 :=
              buildWith_onceInv (hatch w f) w egg.dependency
                (fun e s v s1 huc2 heq hi => ih e s v s1 huc2 heq hi)
                (w.defs egg.dependency).params
                (paramsCached_of_allCachedL w egg.dependency hAC)
                { s with resolving := rinsert egg.dependency s.resolving } kw s5 hb hinv
            have hfroz := buildWith_frozen (hatch w f) w egg.dependency
              (hatch_resolving_eq w f) (hatch_frozen w f)
              (w.defs egg.dependency).params
              { s with resolving := rinsert egg.dependency s.resolving } egg.dependency
              (mem_rinsert_self egg.dependency s.resolving)
            rw [hb] at hfroz
            have hc2 : aget s5.cache egg.dependency = none := hfroz.1.trans hnone
            have hcnt2 : s5.invoked.count egg.dependency = 0 := hfroz.2.trans hcnt0
            have hfc : (finishResolving egg.dependency
                (maybe_add_to_cache { s5 with invoked := egg.dependency :: s5.invoked }
                  egg v2)).cache = aset s5.cache egg.dependency v2 := by
              rw [finish_cache]
              unfold maybe_add_to_cache
              rw [huc]
              rfl
            have hfi : (finishResolving egg.dependency
                (maybe_add_to_cache { s5 with invoked := egg.dependency :: s5.invoked }
                  egg v2)).invoked = egg.dependency :: s5.invoked := by
              rw [finish_invoked, maybe_add_invoked]
            intro q
            rw [hfc, hfi]
            by_cases hq : q = egg.dependency
            · subst hq
              constructor
              · rw [List.count_cons_self, hcnt2]
              · intro _
                rw [aget_aset_self]
                rfl
            · have hne2 : ¬egg.dependency = q := fun hx => hq hx.symm
              have hqc : (egg.dependency :: s5.invoked).count q = s5.invoked.count q := by
                rw [List.count_cons]
                simp [hq, hne2]
              rw [hqc]
              constructor
              · exact (hinv2 q).1
              · intro hge
                have hsome := (hinv2 q).2 hge
                exact aget_isSome_aset s5.cache egg.dependency q v2 hsome
        · simp at h
        · simp at h

/-! Part: Direct path analyses of one `hatch` call -/

theorem hatch_ok_cached (w : World) (fuel : Nat) (egg : Egg) (s : St) (v : Value) (s2 : St)
    (huc : egg.use_cache = true) (h : hatch w fuel egg s = (HOut.ok v, s2)) :
    aget s2.cache egg.dependency = some v := by
  cases fuel with
  | zero => simp [hatch] at h
  | succ f =>
    simp only [hatch] at h
    split at h
    · simp at h
    · split at h
      · next v0 hv0 =>
        have h2 : s = s2 := congrArg Prod.snd h
        have h1 : v0 = v := by
          have hfst := congrArg Prod.fst h
          injection hfst
        subst h2
        subst h1
        have hcl := cacheLookup_of_true egg s huc
        rw [hv0] at hcl
        exact hcl.symm
      · next hmiss =>
        rcases hb : buildWith (hatch w f) w egg.dependency (w.defs egg.dependency).params
          { s with resolving := rinsert egg.dependency s.resolving } with ⟨r2, s5⟩
        rw [hb] at h
        rcases r2 with kw | e | _
        · simp only at h
          rcases hiv : invoke w egg.dependency kw (s5.invoked.count egg.dependency) with m | v2
          · rw [hiv] at h
            simp at h
          · rw [hiv] at h
            have hseq : finishResolving egg.dependency
                (maybe_add_to_cache { s5 with invoked := egg.dependency :: s5.invoked }
                  egg v2) = s2 := congrArg Prod.snd h
            have hveq : v2 = v := by
              have hfst := congrArg Prod.fst h
              injection hfst
            subst hveq
            subst hseq
            have hfc : (finishResolving egg.dependency
                (maybe_add_to_cache { s5 with invoked := egg.dependency :: s5.invoked }
                  egg v2)).cache = aset s5.cache egg.dependency v2 := by
              rw [finish_cache]
              unfold maybe_add_to_cache
              rw [huc]
              rfl
            rw [hfc, aget_aset_self]
        · simp at h
        · simp at h

theorem hatch_ok_invoked_once_more (w : World) (fuel : Nat) (egg : Egg) (s : St)
    (v : Value) (s2 : St)
    (hmiss : cacheLookup egg s = none) (h : hatch w fuel egg s = (HOut.ok v, s2)) :
    s2.invoked.count egg.dependency = s.invoked.count egg.dependency + 1 := by
  cases fuel with
  | zero => simp [hatch] at h
  | succ f =>
    simp only [hatch] at h
    split at h
    · simp at h
    · split at h
      · next v0 hv0 =>
        rw [hmiss] at hv0
        simp at hv0
      · rcases hb : buildWith (hatch w f) w egg.dependency (w.defs egg.dependency).params
          { s with resolving := rinsert egg.dependency s.resolving } with ⟨r2, s5⟩
        rw [hb] at h
        rcases r2 with kw | e | _
        · simp only at h
          rcases hiv : invoke w egg.dependency kw (s5.invoked.count egg.dependency) with m | v2
          · rw [hiv] at h
            simp at h
          · rw [hiv] at h
            injection h with h1 h2
            subst h2
            have hfroz := buildWith_frozen (hatch w f) w egg.dependency
              (hatch_resolving_eq w f) (hatch_frozen w f)
              (w.defs egg.dependency).params
              { s with resolving := rinsert egg.dependency s.resolving } egg.dependency
              (mem_rinsert_self egg.dependency s.resolving)
            rw [hb] at hfroz
            have hfi : (finishResolving egg.dependency
                (maybe_add_to_cache { s5 with invoked := egg.dependency :: s5.invoked }
                  egg v2)).invoked = egg.dependency :: s5.invoked := by
              rw [finish_invoked, maybe_add_invoked]
            rw [hfi, List.count_cons_self, hfroz.2]
        · simp at h
        · simp at h

/-! Part: Termination: enough fuel never runs out, because `resolving` grows
on every nested level and is bounded by the number of providers -/

theorem pair_fst {α β : Type} {a c : α} {b d : β} (h : (a, b) = (c, d)) : a = c :=
  congrArg Prod.fst h

theorem pair_snd {α β : Type} {a c : α} {b d : β} (h : (a, b) = (c, d)) : b = d :=
  congrArg Prod.snd h

theorem nodup_length_le (l : List Nat) (n : Nat) (hnd : l.Nodup)
    (hsub : ∀ q ∈ l, q < n) : l.length ≤ n := by
  classical
  have h1 : l.toFinset.card = l.length := List.toFinset_card_of_nodup hnd
  have h2 : l.toFinset ⊆ Finset.range n := by
    intro x hx
    rw [List.mem_toFinset] at hx
    exact Finset.mem_range.mpr (hsub x hx)
  have h3 := Finset.card_le_card h2
  rw [h1, Finset.card_range] at h3
  exact h3

theorem buildWith_no_fuelOut (hf : Egg → St → HOut × St) (w : World) (pid : Nat) (F : Nat)
    (hres : ∀ e s, ((hf e s).2).resolving = s.resolving)
    (hnf : ∀ e s, e.dependency < w.n → s.resolving.Nodup → (∀ q ∈ s.resolving, q < w.n) →
      w.n + 1 - s.resolving.length ≤ F → (hf e s).1 ≠ HOut.fuelOut) :
    ∀ params, ParamsWF w params → ∀ s, s.resolving.Nodup → (∀ q ∈ s.resolving, q < w.n) →
      w.n + 1 - s.resolving.length ≤ F → (buildWith hf w pid params s).1 ≠ KOut.fuelOut := by
  intro params
  induction params with
  | nil => intro _ s _ _ _; simp [buildWith]
  | cons param rest ih =>
    intro hwf s hnd hsub hF
    have hwfr : ParamsWF w rest := fun p hp e he => hwf p (List.mem_cons_of_mem param hp) e he
    simp only [buildWith]
    split
    · exact ih hwfr s hnd hsub hF
    · split
      · next egg hegg =>
        have hdep : egg.dependency < w.n :=
          hwf param (List.mem_cons_self param rest) egg (findEgg_mem_eggsOf param egg hegg)
        rcases hf1 : hf egg s with ⟨r1, s1⟩
        have hr1 : r1 ≠ HOut.fuelOut := by
          have := hnf egg s hdep hnd hsub hF
          rw [hf1] at this
          exact this
        have hres1 : s1.resolving = s.resolving := by
          have := hres egg s
          rw [hf1] at this
          exact this
        rcases r1 with v1 | e | _
        · simp only
          rcases hb : buildWith hf w pid rest { s1 with available := aset s1.available param.name v1 }
            with ⟨r3, s3⟩
          have hr3 : r3 ≠ KOut.fuelOut := by
            have := ih hwfr { s1 with available := aset s1.available param.name v1 }
              (by show s1.resolving.Nodup; rw [hres1]; exact hnd)
              (by show ∀ q ∈ s1.resolving, q < w.n; rw [hres1]; exact hsub)
              (by show w.n + 1 - s1.resolving.length ≤ F; rw [hres1]; exact hF)
            rw [hb] at this
            exact this
          rcases r3 with kws | e | _
          · simp
          · simp
          · exact absurd rfl hr3
        · simp
        · exact absurd rfl hr1
      · split
        · next v1 hv1 =>
          rcases hb : buildWith hf w pid rest s with ⟨r3, s3⟩
          have hr3 : r3 ≠ KOut.fuelOut := by
            have := ih hwfr s hnd hsub hF
            rw [hb] at this
            exact this
          rcases r3 with kws | e | _
          · simp
          · simp
          · exact absurd rfl hr3
        · split
          · simp
          · exact ih hwfr s hnd hsub hF

theorem hatch_no_fuelOut (w : World) (hWF : WFL w) :
    ∀ fuel egg s, egg.dependency < w.n → s.resolving.Nodup →
      (∀ q ∈ s.resolving, q < w.n) → w.n + 1 - s.resolving.length ≤ fuel →
      (hatch w fuel egg s).1 ≠ HOut.fuelOut := by
  intro fuel
  induction fuel with
  | zero =>
    intro egg s hdep hnd hsub hF
    exfalso
    have hlen := nodup_length_le s.resolving w.n hnd hsub
    omega
  | succ f ih =>
    intro egg s hdep hnd hsub hF
    simp only [hatch]
    split
    · simp
    · next hnc =>
      have hpn : egg.dependency ∉ s.resolving := fun hmem =>
        hnc ((is_circular_iff s egg.dependency).mpr hmem)
      split
      · simp
      · rcases hb : buildWith (hatch w f) w egg.dependency (w.defs egg.dependency).params
          { s with resolving := rinsert egg.dependency s.resolving } with ⟨r2, s5⟩
        have hrins : rinsert egg.dependency s.resolving = egg.dependency :: s.resolving := by
          unfold rinsert
          rw [if_neg hpn]
        have hnd2 : (rinsert egg.dependency s.resolving).Nodup := by
          rw [hrins]
          exact List.nodup_cons.mpr ⟨hpn, hnd⟩
        have hsub2 : ∀ q ∈ rinsert egg.dependency s.resolving, q < w.n := by
          rw [hrins]
          intro q hq
          rcases List.mem_cons.mp hq with h | h
          · rw [h]; exact hdep
          · exact hsub q h
        have hlen2 : (rinsert egg.dependency s.resolving).length = s.resolving.length + 1 := by
          rw [hrins]
          rfl
        have hr2 : r2 ≠ KOut.fuelOut := by
          have := buildWith_no_fuelOut (hatch w f) w egg.dependency f (hatch_resolving_eq w f)
            (fun e2 s2 hd2 hn2 hs2 hf2 => ih e2 s2 hd2 hn2 hs2 hf2)
            (w.defs egg.dependency).params (paramsWF_of_WFL w egg.dependency hWF)
            { s with resolving := rinsert egg.dependency s.resolving }
            hnd2 hsub2
            (by show w.n + 1 - (rinsert egg.dependency s.resolving).length ≤ f
                rw [hlen2]
                omega)
          rw [hb] at this
          exact this
        rcases r2 with kw | e | _
        · simp only
          split
          · simp
          · simp
        · simp
        · exact absurd rfl hr2

/-! Part: Errors raised inside the engine are never the decorator's wrapper -/

theorem buildWith_not_wrap (hf : Egg → St → HOut × St) (w : World) (pid : Nat)
    (hW : ∀ e s e2 s2, hf e s = (HOut.err e2, s2) → e2.isWrap = false) :
    ∀ params s e2 s2, buildWith hf w pid params s = (KOut.err e2, s2) →
      e2.isWrap = false := by
  intro params
  induction params with
  | nil => intro s e2 s2 h; simp [buildWith] at h
  | cons param rest ih =>
    intro s e2 s2 h
    simp only [buildWith] at h
    split at h
    · exact ih s e2 s2 h
    · split at h
      · next egg hegg =>
        rcases hf1 : hf egg s with ⟨r1, s1⟩
        rw [hf1] at h
        rcases r1 with v1 | e | _
        · simp only at h
          rcases hb : buildWith hf w pid rest { s1 with available := aset s1.available param.name v1 }
            with ⟨r3, s3⟩
          rw [hb] at h
          rcases r3 with kws | e | _
          · simp at h
          · simp only at h
            have h1 := pair_fst h
            injection h1 with h1
            rw [← h1]
            exact ih _ e s3 hb
          · simp at h
        · simp only at h
          have h1 := pair_fst h
          injection h1 with h1
          rw [← h1]
          exact hW egg s e s1 hf1
        · simp at h
      · split at h
        · next v1 hv1 =>
          rcases hb : buildWith hf w pid rest s with ⟨r3, s3⟩
          rw [hb] at h
          rcases r3 with kws | e | _
          · simp at h
          · simp only at h
            have h1 := pair_fst h
            injection h1 with h1
            rw [← h1]
            exact ih s e s3 hb
          · simp at h
        · split at h
          · have h1 := pair_fst h
            injection h1 with h1
            rw [← h1]
            rfl
          · exact ih s e2 s2 h

theorem hatch_not_wrap (w : World) :
    ∀ fuel egg s e2 s2, hatch w fuel egg s = (HOut.err e2, s2) → e2.isWrap = false := by
  intro fuel
  induction fuel with
  | zero => intro egg s e2 s2 h; simp [hatch] at h
  | succ f ih =>
    intro egg s e2 s2 h
    simp only [hatch] at h
    split at h
    · have h1 := pair_fst h
      injection h1 with h1
      rw [← h1]
      rfl
    · split at h
      · next v0 hv0 => simp at h
      · rcases hb : buildWith (hatch w f) w egg.dependency (w.defs egg.dependency).params
          { s with resolving := rinsert egg.dependency s.resolving } with ⟨r2, s5⟩
        rw [hb] at h
        rcases r2 with kw | e | _
        · simp only at h
          rcases hiv : invoke w egg.dependency kw (s5.invoked.count egg.dependency) with m | v2
          · rw [hiv] at h
            have h1 := pair_fst h
            injection h1 with h1
            rw [← h1]
            rfl
          · rw [hiv] at h
            simp at h
        · simp only at h
          have h1 := pair_fst h
          injection h1 with h1
          rw [← h1]
          exact buildWith_not_wrap (hatch w f) w egg.dependency
            (fun e3 s3 e4 s4 hh => ih e3 s3 e4 s4 hh) (w.defs egg.dependency).params
            _ e s5 hb
        · simp at h

/-! Part: A failing `hatch` adds no cache entry for its provider -/

theorem hatch_err_cache_unchanged (w : World) (fuel : Nat) (egg : Egg) (s : St)
    (e2 : ErrT) (s2 : St) (h : hatch w fuel egg s = (HOut.err e2, s2)) :
    aget s2.cache egg.dependency = aget s.cache egg.dependency := by
  cases fuel with
  | zero => simp [hatch] at h
  | succ f =>
    simp only [hatch] at h
    split at h
    · have h2 := pair_snd h
      rw [← h2]
    · split at h
      · next v0 hv0 => simp at h
      · rcases hb : buildWith (hatch w f) w egg.dependency (w.defs egg.dependency).params
          { s with resolving := rinsert egg.dependency s.resolving } with ⟨r2, s5⟩
        rw [hb] at h
        have hfroz := buildWith_frozen (hatch w f) w egg.dependency
          (hatch_resolving_eq w f) (hatch_frozen w f)
          (w.defs egg.dependency).params
          { s with resolving := rinsert egg.dependency s.resolving } egg.dependency
          (mem_rinsert_self egg.dependency s.resolving)
        rw [hb] at hfroz
        rcases r2 with kw | e | _
        · simp only at h
          rcases hiv : invoke w egg.dependency kw (s5.invoked.count egg.dependency) with m | v2
          · rw [hiv] at h
            have h2 := pair_snd h
            rw [← h2, finish_cache]
            exact hfroz.1
          · rw [hiv] at h
            simp at h
        · have h2 := pair_snd h
          rw [← h2, finish_cache]
          exact hfroz.1
        · simp at h

/-! Part: Lemmas about the decorator's resolution loop -/

theorem htp_resolving_eq (w : World) (fuel : Nat) :
    ∀ params kw s, ((hatch_target_params w fuel params kw s).2).resolving = s.resolving := by
  intro params
  induction params with
  | nil => intro kw s; rfl
  | cons p rest ih =>
    intro kw s
    simp only [hatch_target_params]
    split
    · exact ih kw s
    · split
      · exact ih kw s
      · next egg hegg =>
        rcases hh : hatch w fuel egg s with ⟨r1, s1⟩
        have hs1 : s1.resolving = s.resolving := by
          have := hatch_resolving_eq w fuel egg s
          rw [hh] at this
          exact this
        rcases r1 with v | e | _
        · simp only
          rw [ih (aset kw p.name v) s1, hs1]
        · simp only [hs1]
        · simp only [hs1]

theorem htp_kw_preserved (w : World) (fuel : Nat) (k : String) :
    ∀ params kw s kwF s2, (∀ q ∈ params, q.name = k → findEgg q = none) →
      hatch_target_params w fuel params kw s = (DOut.ok kwF, s2) →
      aget kwF k = aget kw k := by
  intro params
  induction params with
  | nil =>
    intro kw s kwF s2 _ h
    have h1 := pair_fst h
    injection h1 with h1
    rw [← h1]
  | cons p rest ih =>
    intro kw s kwF s2 hun h
    have hunr : ∀ q ∈ rest, q.name = k → findEgg q = none :=
      fun q hq => hun q (List.mem_cons_of_mem p hq)
    simp only [hatch_target_params] at h
    split at h
    · exact ih kw s kwF s2 hunr h
    · split at h
      · exact ih kw s kwF s2 hunr h
      · next egg hegg =>
        have hpk : p.name ≠ k := by
          intro hx
          have := hun p (List.mem_cons_self p rest) hx
          rw [this] at hegg
          cases hegg
        rcases hh : hatch w fuel egg s with ⟨r1, s1⟩
        rw [hh] at h
        rcases r1 with v | e | _
        · simp only at h
          have := ih (aset kw p.name v) s1 kwF s2 hunr h
          rw [this, aget_aset_ne kw p.name k v hpk]
        · simp at h
        · simp at h

theorem htp_skip_filter (w : World) (fuel : Nat) (k : String) :
    ∀ params kw s, ((aget kw k).isSome = true ∨ (aget s.available k).isSome = true) →
      hatch_target_params w fuel params kw s =
        hatch_target_params w fuel (params.filter (fun q => decide (q.name ≠ k))) kw s := by
  intro params
  induction params with
  | nil => intro kw s _; rfl
  | cons p rest ih =>
    intro kw s hpres
    by_cases hpk : p.name = k
    · have hfil : (p :: rest).filter (fun q => decide (q.name ≠ k)) =
          rest.filter (fun q => decide (q.name ≠ k)) := by
        simp [List.filter_cons, hpk]
      rw [hfil]
      simp only [hatch_target_params]
      split
      · exact ih kw s hpres
      · next hc =>
        exfalso
        apply hc
        rw [hpk]
        rcases hpres with h | h
        · simp [h]
        · simp [h]
    · have hfil : (p :: rest).filter (fun q => decide (q.name ≠ k)) =
          p :: rest.filter (fun q => decide (q.name ≠ k)) := by
        simp [List.filter_cons, hpk]
      rw [hfil]
      simp only [hatch_target_params]
      split
      · exact ih kw s hpres
      · split
        · exact ih kw s hpres
        · next egg hegg =>
          rcases hh : hatch w fuel egg s with ⟨r1, s1⟩
          rcases r1 with v | e | _
          · simp only
            have hpres2 : (aget (aset kw p.name v) k).isSome = true ∨
                (aget s1.available k).isSome = true := by
              rcases hpres with h | h
              · exact Or.inl (aget_isSome_aset kw p.name k v h)
              · refine Or.inr ?_
                have := (hatch_stMono w fuel egg s).1 k h
                rw [hh] at this
                exact this
            exact ih (aset kw p.name v) s1 hpres2
          · rfl
          · rfl

theorem htp_err_shape (w : World) (fuel : Nat) :
    ∀ params kw s e s2, hatch_target_params w fuel params kw s = (DOut.err e, s2) →
      ∃ nm inner, e = ErrT.wrappedE nm inner ∧ inner.isWrap = false ∧
        ∃ q, q ∈ params ∧ q.name = nm ∧ findEgg q ≠ none := by
  intro params
  induction params with
  | nil => intro kw s e s2 h; simp [hatch_target_params] at h
  | cons p rest ih =>
    intro kw s e s2 h
    simp only [hatch_target_params] at h
    split at h
    · rcases ih kw s e s2 h with ⟨nm, inner, he, hiw, q, hq, hnm, hfe⟩
      exact ⟨nm, inner, he, hiw, q, List.mem_cons_of_mem p hq, hnm, hfe⟩
    · split at h
      · rcases ih kw s e s2 h with ⟨nm, inner, he, hiw, q, hq, hnm, hfe⟩
        exact ⟨nm, inner, he, hiw, q, List.mem_cons_of_mem p hq, hnm, hfe⟩
      · next egg hegg =>
        rcases hh : hatch w fuel egg s with ⟨r1, s1⟩
        rw [hh] at h
        rcases r1 with v | e1 | _
        · simp only at h
          rcases ih (aset kw p.name v) s1 e s2 h with ⟨nm, inner, he, hiw, q, hq, hnm, hfe⟩
          exact ⟨nm, inner, he, hiw, q, List.mem_cons_of_mem p hq, hnm, hfe⟩
        · have h1 := pair_fst h
          injection h1 with h1
          refine ⟨p.name, e1, h1.symm, hatch_not_wrap w fuel egg s e1 s1 hh,
            p, List.mem_cons_self p rest, rfl, ?_⟩
          rw [hegg]
          simp
        · simp at h

/-! Part: The wrapper forwards the loop's outcome to the target call -/

theorem async_wrapper_of_ok (w : World) (fuel : Nat) (t : Target) (args : List Value)
    (kw : List (String × Value)) (kwF : List (String × Value)) (s1 : St)
    (hh : hatch_target_params w fuel t.params kw (wrapperInit t args kw) = (DOut.ok kwF, s1)) :
    async_wrapper w fuel t args kw =
      (match t.body args kwF with
       | Except.ok v => WOut.ok v
       | Except.error m => WOut.targetErr m, s1) := by
  unfold async_wrapper
  rw [hh]
  simp only
  rcases hb2 : t.body args kwF with m | v
  · rfl
  · rfl

theorem async_wrapper_of_err (w : World) (fuel : Nat) (t : Target) (args : List Value)
    (kw : List (String × Value)) (e : ErrT) (s1 : St)
    (hh : hatch_target_params w fuel t.params kw (wrapperInit t args kw) = (DOut.err e, s1)) :
    async_wrapper w fuel t args kw = (WOut.resolutionErr e, s1) := by
  unfold async_wrapper
  rw [hh]

/-! Part: The kwargs built for a provider only bind its declared parameter
names -/

theorem buildWith_kw_keys (hf : Egg → St → HOut × St) (w : World) (pid : Nat) :
    ∀ params s kws s3, buildWith hf w pid params s = (KOut.ok kws, s3) →
      ∀ k2, (aget kws k2).isSome = true → ∃ q ∈ params, q.name = k2 := by
  intro params
  induction params with
  | nil =>
    intro s kws s3 h k2 hk
    have h1 := pair_fst h
    injection h1 with h1
    rw [← h1] at hk
    simp [aget] at hk
  | cons param rest ih =>
    intro s kws s3 h k2 hk
    simp only [buildWith] at h
    split at h
    · rcases ih s kws s3 h k2 hk with ⟨q, hq, hn⟩
      exact ⟨q, List.mem_cons_of_mem param hq, hn⟩
    · split at h
      · next egg hegg =>
        rcases hf1 : hf egg s with ⟨r1, s1⟩
        rw [hf1] at h
        rcases r1 with v1 | e | _
        · simp only at h
          rcases hb : buildWith hf w pid rest { s1 with available := aset s1.available param.name v1 }
            with ⟨r3, s4⟩
          rw [hb] at h
          rcases r3 with kws2 | e | _
          · simp only at h
            have h1 := pair_fst h
            injection h1 with h1
            rw [← h1] at hk
            by_cases hkp : param.name = k2
            · exact ⟨param, List.mem_cons_self param rest, hkp⟩
            · rw [show aget ((param.name, v1) :: kws2) k2 = aget kws2 k2 from by
                simp [aget, hkp]] at hk
              rcases ih _ kws2 s4 hb k2 hk with ⟨q, hq, hn⟩
              exact ⟨q, List.mem_cons_of_mem param hq, hn⟩
          · simp at h
          · simp at h
        · simp at h
        · simp at h
      · split at h
        · next v1 hv1 =>
          rcases hb : buildWith hf w pid rest s with ⟨r3, s4⟩
          rw [hb] at h
          rcases r3 with kws2 | e | _
          · simp only at h
            have h1 := pair_fst h
            injection h1 with h1
            rw [← h1] at hk
            by_cases hkp : param.name = k2
            · exact ⟨param, List.mem_cons_self param rest, hkp⟩
            · rw [show aget ((param.name, v1) :: kws2) k2 = aget kws2 k2 from by
                simp [aget, hkp]] at hk
              rcases ih s kws2 s4 hb k2 hk with ⟨q, hq, hn⟩
              exact ⟨q, List.mem_cons_of_mem param hq, hn⟩
          · simp at h
          · simp at h
        · split at h
          · simp at h
          · rcases ih s kws s3 h k2 hk with ⟨q, hq, hn⟩
            exact ⟨q, List.mem_cons_of_mem param hq, hn⟩

/-! Part: Concrete worlds for counterexamples and witnesses -/

/-- A provider whose result is its invocation index, mirroring the test
suite's `counting_dep`. -/
def cexWorld : World := ⟨[⟨"counting_dep", [], fun _ callIdx => Except.ok callIdx⟩]⟩

def cexS1 : St := ⟨[], [(0, 0)], [], [0]⟩

/-- C1 counterexample: provider 0 is first requested through a marker with
`use_cache = true`, so its result 0 is cached; a later request through a
marker with `use_cache = false` does NOT return the cached result 0 but
re-invokes the provider and returns 1, and the provider is invoked twice —
refuting the sharing claimed regardless of the later marker's flag. -/
theorem claim1_counterexample :
    hatch cexWorld 2 ⟨0, true⟩ (st0 []) = (HOut.ok 0, cexS1) ∧
    aget cexS1.cache 0 = some 0 ∧
    (hatch cexWorld 2 ⟨0, false⟩ cexS1).1 = HOut.ok 1 ∧
    HOut.ok 1 ≠ HOut.ok 0 ∧
    ((hatch cexWorld 2 ⟨0, false⟩ cexS1).2).invoked.count 0 = 2 := by
  refine ⟨by decide, by decide, by decide, by decide, by decide⟩

/-- C1 amended: after a first request through a cache-enabled marker
returns `v`, the cache holds `v` under the provider's identity, and a later
request for the same provider is served from the cache exactly when the
later marker's own `use_cache` flag is true (`is_cached` consults the
requesting marker's flag); a cache-enabled later request returns the cached
`v` without touching the state. -/
theorem claim1_first_marker_cache_sharing (w : World) (fuel fuel2 : Nat)
    (e1 e2 : Egg) (s s1 : St) (v : Value)
    (huc1 : e1.use_cache = true)
    (hdep : e2.dependency = e1.dependency)
    (hnr : e1.dependency ∉ s.resolving)
    (h1 : hatch w fuel e1 s = (HOut.ok v, s1)) :
    is_cached s1 e2 = e2.use_cache ∧
    (e2.use_cache = true → hatch w (fuel2 + 1) e2 s1 = (HOut.ok v, s1)) := by
  have hc : aget s1.cache e1.dependency = some v :=
    hatch_ok_cached w fuel e1 s v s1 huc1 h1
  have hres : s1.resolving = s.resolving := by
    have := hatch_resolving_eq w fuel e1 s
    rw [h1] at this
    exact this
  have hnr1 : e2.dependency ∉ s1.resolving := by
    rw [hdep, hres]
    exact hnr
  constructor
  · unfold is_cached
    rw [hdep, hc]
    simp
  · intro huc2
    have hcirc : is_circular_dependency s1 e2.dependency = false := by
      simp [is_circular_dependency, hnr1]
    have hcl : cacheLookup e2 s1 = some v := by
      rw [cacheLookup_of_true e2 s1 huc2, hdep]
      exact hc
    simp [hatch, hcirc, hcl]

/-- C1 witness for the amended theorem: in the counterexample world, after
the first cached request the cache is consulted for a later cache-enabled
marker, which returns the cached 0 unchanged. -/
theorem claim1_witness :
    is_cached cexS1 ⟨0, true⟩ = true ∧
    hatch cexWorld 3 ⟨0, true⟩ cexS1 = (HOut.ok 0, cexS1) := by
  have h := claim1_first_marker_cache_sharing cexWorld 2 2 ⟨0, true⟩ ⟨0, true⟩
    (st0 []) cexS1 0 rfl rfl (by decide) (by decide)
  exact ⟨h.1, h.2 rfl⟩

/-- C2: in a world where every declared marker caches, a provider first
requested through a cache-enabled marker in a fresh top-level resolution is
invoked exactly once; any second request returns the identical value and
leaves the state untouched, and globally no provider is ever invoked more
than once. -/
theorem claim2_cached_single_invocation (w : World) (hAC : AllCachedL w)
    (fuel fuel2 : Nat) (e : Egg) (avail : List (String × Value))
    (v v2 : Value) (s1 s2 : St)
    (huc : e.use_cache = true)
    (h1 : hatch w fuel e (st0 avail) = (HOut.ok v, s1))
    (h2 : hatch w fuel2 e s1 = (HOut.ok v2, s2)) :
    v2 = v ∧ s2 = s1 ∧ s1.invoked.count e.dependency = 1 ∧
    ∀ q, s1.invoked.count q ≤ 1 := by
  have hc : aget s1.cache e.dependency = some v :=
    hatch_ok_cached w fuel e (st0 avail) v s1 huc h1
  have hmiss0 : cacheLookup e (st0 avail) = none := by
    rw [cacheLookup_of_true e (st0 avail) huc]
    rfl
  have hcnt : s1.invoked.count e.dependency = 1 := by
    have := hatch_ok_invoked_once_more w fuel e (st0 avail) v s1 hmiss0 h1
    rw [this]
    rfl
  have hinv0 : OnceInv (st0 avail) := by
    intro q
    constructor
    · simp [st0]
    · intro hge
      simp [st0] at hge
  have hinv1 : OnceInv s1 := hatch_onceInv w hAC fuel e (st0 avail) v s1 huc h1 hinv0
  have hvs : v2 = v ∧ s2 = s1 := by
    cases fuel2 with
    | zero => simp [hatch] at h2
    | succ f2 =>
      simp only [hatch] at h2
      split at h2
      · simp at h2
      · split at h2
        · next v0 hv0 =>
          rw [cacheLookup_of_true e s1 huc, hc] at hv0
          injection hv0 with hv0
          have ha := pair_fst h2
          have hb := pair_snd h2
          injection ha with ha
          exact ⟨ha.symm.trans hv0.symm, hb.symm⟩
        · next hmiss =>
          rw [cacheLookup_of_true e s1 huc, hc] at hmiss
          cases hmiss
  exact ⟨hvs.1, hvs.2, hcnt, fun q => (hinv1 q).1⟩

def c2World : World := ⟨[⟨"get_base_value", [], fun _ _ => Except.ok 7⟩]⟩

def c2S1 : St := ⟨[], [(0, 7)], [], [0]⟩

/-- C2 witness: a concrete all-cached world where the provider is invoked
once and a second request returns the identical 7. -/
theorem claim2_witness :
    (7 : Value) = 7 ∧ c2S1 = c2S1 ∧ c2S1.invoked.count 0 = 1 ∧
    ∀ q, c2S1.invoked.count q ≤ 1 :=
  claim2_cached_single_invocation c2World (by unfold AllCachedL; decide) 1 1 ⟨0, true⟩ [] 7 7
    c2S1 c2S1 rfl (by decide) (by decide)

/-- C3: a provider re-encountered while on the `resolving` stack makes
`hatch` fail immediately with the circular-dependency error naming that
provider (the state untouched), and with fuel at least one more than the
number of providers not yet on the stack, `hatch` never exhausts its fuel —
the model's rendering of bounded recursion. -/
theorem claim3_circular_detection (w : World) (hWF : WFL w) (e : Egg) (s : St)
    (fuel : Nat) (hdep : e.dependency < w.n) (hnd : s.resolving.Nodup)
    (hsub : ∀ q ∈ s.resolving, q < w.n)
    (hfuel : w.n + 1 - s.resolving.length ≤ fuel) :
    (e.dependency ∈ s.resolving →
      hatch w fuel e s = (HOut.err (ErrT.circularE (w.defs e.dependency).name), s) ∧
      errMsg (ErrT.circularE (w.defs e.dependency).name) =
        "Circular dependency: " ++ (w.defs e.dependency).name) ∧
    (hatch w fuel e s).1 ≠ HOut.fuelOut := by
  constructor
  · intro hmem
    constructor
    · cases fuel with
      | zero =>
        exfalso
        have := nodup_length_le s.resolving w.n hnd hsub
        omega
      | succ f =>
        have hcirc : is_circular_dependency s e.dependency = true :=
          (is_circular_iff s e.dependency).mpr hmem
        simp [hatch, hcirc]
    · rfl
  · exact hatch_no_fuelOut w hWF fuel e s hdep hnd hsub hfuel

/-- The mutually recursive pair `dep_a`, `dep_b` from the test suite. -/
def cycWorld : World :=
  ⟨[⟨"dep_a", [⟨"b", some (Hint.annotated [AnnItem.eggArg ⟨1, true⟩]),
      DefaultV.emptyDefault⟩], fun _ _ => Except.ok 0⟩,
    ⟨"dep_b", [⟨"a", some (Hint.annotated [AnnItem.eggArg ⟨0, true⟩]),
      DefaultV.emptyDefault⟩], fun _ _ => Except.ok 0⟩]⟩

def cycS : St := ⟨[], [], [0], []⟩

/-- C3 witness: with `dep_a` already on the resolving stack, requesting it
again fails with the circular error naming `dep_a`, and the run does not
exhaust its fuel. -/
theorem claim3_witness :
    hatch cycWorld 3 ⟨0, true⟩ cycS =
      (HOut.err (ErrT.circularE "dep_a"), cycS) ∧
    errMsg (ErrT.circularE "dep_a") = "Circular dependency: dep_a" ∧
    (hatch cycWorld 3 ⟨0, true⟩ cycS).1 ≠ HOut.fuelOut := by
  have h := claim3_circular_detection cycWorld (by unfold WFL; decide) ⟨0, true⟩ cycS 3
    (by decide) (by decide) (by decide) (by decide)
  exact ⟨(h.1 (by decide)).1, (h.1 (by decide)).2, h.2⟩

/-- C4: a target parameter whose name is explicitly bound at call time
(keyword arguments land in `kwargs`, positional arguments in the initial
`available` map) is skipped by the decorator's resolution loop — the whole
run is identical to the run with that parameter deleted, so its provider is
never invoked for it; the explicitly supplied keyword value survives into
the final kwargs, and the wrapper hands the original positional arguments
plus those kwargs to the target unchanged. -/
theorem claim4_explicit_override (w : World) (fuel : Nat) (k : String) :
    (∀ params kw s,
      ((aget kw k).isSome = true ∨ (aget s.available k).isSome = true) →
      hatch_target_params w fuel params kw s =
        hatch_target_params w fuel (params.filter (fun q => decide (q.name ≠ k))) kw s) ∧
    (∀ params kw s val kwF s2, aget kw k = some val →
      hatch_target_params w fuel params kw s = (DOut.ok kwF, s2) →
      aget kwF k = some val) ∧
    (∀ t args kw kwF s1,
      hatch_target_params w fuel t.params kw (wrapperInit t args kw) = (DOut.ok kwF, s1) →
      async_wrapper w fuel t args kw =
        (match t.body args kwF with
         | Except.ok v => WOut.ok v
         | Except.error m => WOut.targetErr m, s1)) := by
  refine ⟨htp_skip_filter w fuel k, ?_, ?_⟩
  · intro params kw s val kwF s2 hval h
    have hpres : (aget kw k).isSome = true ∨ (aget s.available k).isSome = true := by
      left
      rw [hval]
      rfl
    rw [htp_skip_filter w fuel k params kw s hpres] at h
    have hun : ∀ q ∈ params.filter (fun q => decide (q.name ≠ k)), q.name = k → findEgg q = none := by
      intro q hq hqk
      have := List.of_mem_filter hq
      simp [hqk] at this
    have := htp_kw_preserved w fuel k (params.filter (fun q => decide (q.name ≠ k)))
      kw s kwF s2 hun h
    rw [this, hval]
  · intro t args kw kwF s1 h
    exact async_wrapper_of_ok w fuel t args kw kwF s1 h

def c4World : World := ⟨[⟨"get_base_value", [], fun _ _ => Except.ok 10⟩]⟩

def c4Target : Target :=
  ⟨[⟨"value", some (Hint.annotated [AnnItem.eggArg ⟨0, true⟩]), DefaultV.emptyDefault⟩],
   fun _ kw =>
     match aget kw "value" with
     | some v => Except.ok (v + 1)
     | none => Except.error "missing value"⟩

def c4S1 : St := ⟨[("value", 100)], [], [], []⟩

/-- C4 witness: calling the decorated target with the explicit keyword
argument `value = 100` yields 101 from the mock value; the provider's
result 10 is never produced and the provider is never invoked. -/
theorem claim4_witness :
    aget [("value", 100)] "value" = some 100 ∧
    async_wrapper c4World 5 c4Target [] [("value", 100)] = (WOut.ok 101, c4S1) ∧
    c4S1.invoked.count 0 = 0 := by
  have hparts := claim4_explicit_override c4World 5 "value"
  have hh : hatch_target_params c4World 5 c4Target.params [("value", 100)]
      (wrapperInit c4Target [] [("value", 100)]) = (DOut.ok [("value", 100)], c4S1) := by
    decide
  have hkw := hparts.2.1 c4Target.params [("value", 100)]
    (wrapperInit c4Target [] [("value", 100)]) 100 [("value", 100)] c4S1 rfl hh
  have hw := hparts.2.2 c4Target [] [("value", 100)] [("value", 100)] c4S1 hh
  refine ⟨hkw, ?_, by decide⟩
  rw [hw]
  decide

/-- C5: in `build_callable_kwargs`, a provider parameter with no marker,
no entry in `available`, and no declared default fails with the
missing-dependency error naming the parameter, the provider, and the
current `available` keys (with exactly the source's message); the same
parameter with a declared default is skipped, and the kwargs built from the
remaining parameters never bind its name. -/
theorem claim5_missing_dependency (w : World) (fuel : Nat) (pid : Nat)
    (param : Param) (rest : List Param) (s : St)
    (hsc : ¬(param.name = "self" ∨ param.name = "cls"))
    (hne : findEgg param = none)
    (hna : aget s.available param.name = none) :
    (param.default = DefaultV.emptyDefault →
      build_callable_kwargs w fuel pid (param :: rest) s =
        (KOut.err (ErrT.missingE param.name (w.defs pid).name (keysOf s.available)), s) ∧
      errMsg (ErrT.missingE param.name (w.defs pid).name (keysOf s.available)) =
        "Missing \x27" ++ param.name ++ "\x27 for " ++ (w.defs pid).name ++
          ". Available: " ++ listKeysRepr (keysOf s.available)) ∧
    (param.default ≠ DefaultV.emptyDefault →
      build_callable_kwargs w fuel pid (param :: rest) s =
        build_callable_kwargs w fuel pid rest s ∧
      (∀ kws s3, (∀ q ∈ rest, q.name ≠ param.name) →
        build_callable_kwargs w fuel pid rest s = (KOut.ok kws, s3) →
        aget kws param.name = none)) := by
  constructor
  · intro hd
    constructor
    · unfold build_callable_kwargs
      simp only [buildWith, if_neg hsc, hne, hna, hd]
    · rfl
  · intro hd2
    constructor
    · unfold build_callable_kwargs
      rcases hdd : param.default with _ | e | _
      · exact absurd hdd hd2
      · exfalso
        unfold findEgg at hne
        rcases hx : extract_eggs param.hint with _ | e1
        · rw [hx, hdd] at hne
          simp at hne
        · rw [hx] at hne
          simp at hne
      · simp only [buildWith, if_neg hsc, hne, hna, hdd]
    · intro kws s3 hrest hb
      rcases hk : aget kws param.name with _ | v0
      · rfl
      · exfalso
        have hsome : (aget kws param.name).isSome = true := by
          rw [hk]
          rfl
        rcases buildWith_kw_keys (hatch w fuel) w pid rest s kws s3 hb param.name hsome
          with ⟨q, hq, hn⟩
        exact hrest q hq hn

def c5Param : Param := ⟨"missing_param", none, DefaultV.emptyDefault⟩

def c5OptParam : Param := ⟨"opt", none, DefaultV.valueDefault⟩

def needsParamProv : ProviderDef :=
  ⟨"needs_param", [c5Param], fun _ _ => Except.ok 0⟩

def c56World : World := ⟨[needsParamProv]⟩

/-- C5 witness: the concrete `needs_param` provider fails with the exact
missing-dependency message, while a parameter with a default is omitted
from the built kwargs. -/
theorem claim5_witness :
    build_callable_kwargs c56World 1 0 [c5Param] (st0 []) =
      (KOut.err (ErrT.missingE "missing_param" "needs_param" []), st0 []) ∧
    errMsg (ErrT.missingE "missing_param" "needs_param" []) =
      "Missing \x27missing_param\x27 for needs_param. Available: []" ∧
    build_callable_kwargs c56World 1 0 [c5OptParam] (st0 []) =
      build_callable_kwargs c56World 1 0 [] (st0 []) ∧
    aget ([] : List (String × Value)) "opt" = none := by
  have h1 := (claim5_missing_dependency c56World 1 0 c5Param [] (st0 [])
    (by decide) (by decide) rfl).1 rfl
  have h2 := (claim5_missing_dependency c56World 1 0 c5OptParam [] (st0 [])
    (by decide) (by decide) rfl).2 (by decide)
  exact ⟨h1.1, h1.2, h2.1, h2.2 [] (st0 []) (by simp) rfl⟩

/-- C6: the decorator's exit contract — on success the wrapper returns the
target's value unchanged; when resolving a target parameter fails, the
wrapper raises exactly one wrapper error naming that marker-bearing
parameter, with the engine's error chained underneath and the exact source
message; and no error produced inside `hatch`/`build_callable_kwargs` is
ever itself a wrapper error, so nested failures propagate to the decorator
unwrapped. -/
theorem claim6_decorator_exit_contract (w : World) (fuel : Nat) :
    (∀ t args kw kwF s1 v,
      hatch_target_params w fuel t.params kw (wrapperInit t args kw) = (DOut.ok kwF, s1) →
      t.body args kwF = Except.ok v →
      async_wrapper w fuel t args kw = (WOut.ok v, s1)) ∧
    (∀ t args kw e s1,
      hatch_target_params w fuel t.params kw (wrapperInit t args kw) = (DOut.err e, s1) →
      async_wrapper w fuel t args kw = (WOut.resolutionErr e, s1) ∧
      ∃ nm inner, e = ErrT.wrappedE nm inner ∧ inner.isWrap = false ∧
        errMsg e = "Failed to hatch \x27" ++ nm ++ "\x27: " ++ errMsg inner ∧
        ∃ q, q ∈ t.params ∧ q.name = nm ∧ findEgg q ≠ none) ∧
    (∀ fuel2 egg s e2 s2, hatch w fuel2 egg s = (HOut.err e2, s2) →
      e2.isWrap = false) := by
  refine ⟨?_, ?_, hatch_not_wrap w⟩
  · intro t args kw kwF s1 v hh hbody
    rw [async_wrapper_of_ok w fuel t args kw kwF s1 hh, hbody]
  · intro t args kw e s1 hh
    refine ⟨async_wrapper_of_err w fuel t args kw e s1 hh, ?_⟩
    rcases htp_err_shape w fuel t.params kw (wrapperInit t args kw) e s1 hh
      with ⟨nm, inner, he, hiw, q, hq, hnm, hfe⟩
    refine ⟨nm, inner, he, hiw, ?_, q, hq, hnm, hfe⟩
    rw [he]
    rfl

def c6Target : Target :=
  ⟨[⟨"value", some (Hint.annotated [AnnItem.eggArg ⟨0, true⟩]), DefaultV.emptyDefault⟩],
   fun _ kw =>
     match aget kw "value" with
     | some v => Except.ok v
     | none => Except.error "missing value"⟩

/-- C6 witness: resolving the target's `value` parameter against the
`needs_param` provider fails; the wrapper raises exactly one wrapper error
naming `value` with the missing-dependency cause chained, and the full
message matches the source format. -/
theorem claim6_witness :
    async_wrapper c56World 5 c6Target [] [] =
      (WOut.resolutionErr (ErrT.wrappedE "value"
        (ErrT.missingE "missing_param" "needs_param" [])), st0 []) ∧
    errMsg (ErrT.wrappedE "value" (ErrT.missingE "missing_param" "needs_param" [])) =
      "Failed to hatch \x27value\x27: Missing \x27missing_param\x27 for needs_param. Available: []" ∧
    (ErrT.missingE "missing_param" "needs_param" []).isWrap = false := by
  have h := (claim6_decorator_exit_contract c56World 5).2.1 c6Target [] []
    (ErrT.wrappedE "value" (ErrT.missingE "missing_param" "needs_param" []))
    (st0 []) (by decide)
  exact ⟨h.1, rfl, rfl⟩

/-- C7: `hatch` restores `resolving` exactly on every exit path; a failing
`hatch` leaves its provider's cache entry unchanged; and a top-level
resolution starts and ends with an empty `resolving` set, whatever its
outcome. -/
theorem claim7_resolving_scoped (w : World) :
    (∀ fuel e s r s2, hatch w fuel e s = (r, s2) → s2.resolving = s.resolving) ∧
    (∀ fuel e s e2 s2, hatch w fuel e s = (HOut.err e2, s2) →
      aget s2.cache e.dependency = aget s.cache e.dependency) ∧
    (∀ fuel params kw avail r s2,
      hatch_target_params w fuel params kw (st0 avail) = (r, s2) →
      (st0 avail).resolving = [] ∧ s2.resolving = []) := by
  refine ⟨?_, ?_, ?_⟩
  · intro fuel e s r s2 h
    have := hatch_resolving_eq w fuel e s
    rw [h] at this
    exact this
  · intro fuel e s e2 s2 h
    exact hatch_err_cache_unchanged w fuel e s e2 s2 h
  · intro fuel params kw avail r s2 h
    refine ⟨rfl, ?_⟩
    have := htp_resolving_eq w fuel params kw (st0 avail)
    rw [h] at this
    exact this

/-- C7 witness: the failing cyclic resolution of `dep_a` from a fresh state
ends with `resolving` empty and no cache entry for `dep_a`, and a failing
top-level loop also ends with `resolving` empty. -/
theorem claim7_witness :
    ((hatch cycWorld 10 ⟨0, true⟩ (st0 [])).2).resolving = (st0 []).resolving ∧
    aget ((hatch cycWorld 10 ⟨0, true⟩ (st0 [])).2).cache 0 = aget (st0 []).cache 0 ∧
    ((hatch_target_params cycWorld 10
      [⟨"val", some (Hint.annotated [AnnItem.eggArg ⟨0, true⟩]), DefaultV.emptyDefault⟩]
      [] (st0 [])).2).resolving = [] := by
  have hp := claim7_resolving_scoped cycWorld
  refine ⟨?_, ?_, ?_⟩
  · exact hp.1 10 ⟨0, true⟩ (st0 []) (hatch cycWorld 10 ⟨0, true⟩ (st0 [])).1
      (hatch cycWorld 10 ⟨0, true⟩ (st0 [])).2 rfl
  · exact hp.2.1 10 ⟨0, true⟩ (st0 [])
      (ErrT.circularE "dep_a") (hatch cycWorld 10 ⟨0, true⟩ (st0 [])).2 (by decide)
  · exact (hp.2.2 10
      [⟨"val", some (Hint.annotated [AnnItem.eggArg ⟨0, true⟩]), DefaultV.emptyDefault⟩]
      [] []
      (hatch_target_params cycWorld 10
        [⟨"val", some (Hint.annotated [AnnItem.eggArg ⟨0, true⟩]), DefaultV.emptyDefault⟩]
        [] (st0 [])).1
      (hatch_target_params cycWorld 10
        [⟨"val", some (Hint.annotated [AnnItem.eggArg ⟨0, true⟩]), DefaultV.emptyDefault⟩]
        [] (st0 [])).2 rfl).2

/-- C8: the extractor recognizes at most one marker per parameter — it
returns an `Option`.  When the annotation is an `Annotated` hint whose
metadata contains a marker, the first such marker wins and any marker in
the default is ignored; when the annotation yields nothing, a marker
default is returned; otherwise nothing is, and non-`Annotated` hints never
yield a marker. -/
theorem claim8_marker_extraction (nm : String) :
    (∀ metadata e d, firstEgg metadata = some e →
      findEgg ⟨nm, some (Hint.annotated metadata), d⟩ = some e) ∧
    (∀ hint e, extract_eggs hint = none →
      findEgg ⟨nm, hint, DefaultV.eggDefault e⟩ = some e) ∧
    (∀ hint d, extract_eggs hint = none → (∀ e, d ≠ DefaultV.eggDefault e) →
      findEgg ⟨nm, hint, d⟩ = none) ∧
    (∀ pre e post, (∀ e2, AnnItem.eggArg e2 ∉ pre) →
      firstEgg (pre ++ AnnItem.eggArg e :: post) = some e) ∧
    (extract_eggs none = none ∧ extract_eggs (some Hint.plainHint) = none) := by
  refine ⟨?_, ?_, ?_, ?_, rfl, rfl⟩
  · intro metadata e d h
    unfold findEgg
    simp only [extract_eggs, h]
  · intro hint e h
    unfold findEgg
    rw [h]
  · intro hint d h hd
    unfold findEgg
    rw [h]
    rcases d with _ | e | _
    · rfl
    · exact absurd rfl (hd e)
    · rfl
  · intro pre e post hpre
    induction pre with
    | nil => rfl
    | cons it rest ih =>
      rcases it with e2 | _
      · exact absurd (List.mem_cons_self (AnnItem.eggArg e2) rest) (hpre e2)
      · simp only [List.cons_append, firstEgg]
        exact ih (fun e2 hmem => hpre e2 (List.mem_cons_of_mem AnnItem.otherArg hmem))

/-- C8 witness: with metadata carrying a junk entry before the marker on
provider 3 and a conflicting marker default on provider 9, the annotation's
marker wins and is the first one found; a bare marker default is used only
when the annotation yields nothing, and a plain hint yields nothing. -/
theorem claim8_witness :
    findEgg ⟨"value", some (Hint.annotated [AnnItem.otherArg, AnnItem.eggArg ⟨3, true⟩]),
      DefaultV.eggDefault ⟨9, false⟩⟩ = some ⟨3, true⟩ ∧
    findEgg ⟨"value", some Hint.plainHint, DefaultV.eggDefault ⟨9, false⟩⟩ = some ⟨9, false⟩ ∧
    findEgg ⟨"value", none, DefaultV.valueDefault⟩ = none ∧
    firstEgg [AnnItem.otherArg, AnnItem.eggArg ⟨3, true⟩] = some ⟨3, true⟩ := by
  have h := claim8_marker_extraction "value"
  refine ⟨?_, ?_, ?_, ?_⟩
  · exact h.1 [AnnItem.otherArg, AnnItem.eggArg ⟨3, true⟩] ⟨3, true⟩
      (DefaultV.eggDefault ⟨9, false⟩) (by decide)
  · exact h.2.1 (some Hint.plainHint) ⟨9, false⟩ rfl
  · exact h.2.2.1 none DefaultV.valueDefault rfl (by intro e; simp)
  · exact h.2.2.2.1 [AnnItem.otherArg] ⟨3, true⟩ [] (by intro e2; simp)

/-- C9: `close_generator` is a no-op on a missing handle (zero steps, no
logging), otherwise attempts exactly one more step and always returns
normally; a clean stop (the iteration-exhausted signal) logs nothing, any
other teardown exception is logged and swallowed, and outrunning the
timeout is likewise logged and swallowed — it never raises to its
caller. -/
theorem claim9_close_generator (timeout : Nat) :
    (close_generator none timeout = Except.ok ⟨0, []⟩) ∧
    (∀ g, ∃ r : CloseRes, close_generator (some g) timeout = Except.ok r ∧ r.steps = 1) ∧
    (∀ g, g.timesOut = false → g.step = GenStep.stops →
      close_generator (some g) timeout = Except.ok ⟨1, []⟩) ∧
    (∀ g m, g.timesOut = false → g.step = GenStep.raises m →
      close_generator (some g) timeout =
        Except.ok ⟨1, ["Error during cleanup: " ++ m]⟩) ∧
    (∀ g, g.timesOut = true →
      close_generator (some g) timeout =
        Except.ok ⟨1, ["Cleanup timed out after " ++ toString timeout ++ "s"]⟩) := by
  refine ⟨rfl, ?_, ?_, ?_, ?_⟩
  · intro g
    obtain ⟨ia, st, tmo⟩ := g
    cases ia <;> cases tmo <;> cases st <;> exact ⟨_, rfl, rfl⟩
  · intro g h1 h2
    obtain ⟨ia, st, tmo⟩ := g
    simp only at h1 h2
    subst h1
    subst h2
    cases ia <;> rfl
  · intro g m h1 h2
    obtain ⟨ia, st, tmo⟩ := g
    simp only at h1 h2
    subst h1
    subst h2
    cases ia <;> rfl
  · intro g h1
    obtain ⟨ia, st, tmo⟩ := g
    simp only at h1
    subst h1
    cases ia <;> rfl

/-- C9 witness: concrete sync generators — a clean stop, a raising
teardown, and a timeout — all return normally with the expected step count
and logs. -/
theorem claim9_witness :
    close_generator none 30 = Except.ok ⟨0, []⟩ ∧
    close_generator (some ⟨false, GenStep.stops, false⟩) 30 = Except.ok ⟨1, []⟩ ∧
    close_generator (some ⟨false, GenStep.raises "boom", false⟩) 30 =
      Except.ok ⟨1, ["Error during cleanup: boom"]⟩ ∧
    close_generator (some ⟨true, GenStep.yields 5, true⟩) 30 =
      Except.ok ⟨1, ["Cleanup timed out after 30s"]⟩ := by
  have h := claim9_close_generator 30
  exact ⟨h.1, h.2.2.1 ⟨false, GenStep.stops, false⟩ rfl rfl,
    h.2.2.2.1 ⟨false, GenStep.raises "boom", false⟩ "boom" rfl rfl,
    h.2.2.2.2 ⟨true, GenStep.yields 5, true⟩ rfl⟩

/-- C10: the decorator performs no missing-value check of its own — a
target parameter without a marker is simply skipped by the resolution loop
whatever its default or availability, so the loop behaves as if the
parameter were absent and never raises for it; such a name absent from the
call kwargs never appears in the final kwargs, and the wrapper then invokes
the target without that argument, so any resulting failure is the target
call's own. -/
theorem claim10_no_missing_check (w : World) (fuel : Nat) (p : Param)
    (hno : findEgg p = none) :
    (∀ rest kw s, hatch_target_params w fuel (p :: rest) kw s =
      hatch_target_params w fuel rest kw s) ∧
    (∀ params kw s kwF s2, (∀ q ∈ params, q.name = p.name → findEgg q = none) →
      aget kw p.name = none →
      hatch_target_params w fuel params kw s = (DOut.ok kwF, s2) →
      aget kwF p.name = none) ∧
    (∀ t args kw kwF s1,
      hatch_target_params w fuel t.params kw (wrapperInit t args kw) = (DOut.ok kwF, s1) →
      async_wrapper w fuel t args kw =
        (match t.body args kwF with
         | Except.ok v => WOut.ok v
         | Except.error m => WOut.targetErr m, s1)) := by
  refine ⟨?_, ?_, ?_⟩
  · intro rest kw s
    simp only [hatch_target_params]
    split
    · rfl
    · rw [hno]
  · intro params kw s kwF s2 hun hnone h
    rw [htp_kw_preserved w fuel p.name params kw s kwF s2 hun h]
    exact hnone
  · intro t args kw kwF s1 h
    exact async_wrapper_of_ok w fuel t args kw kwF s1 h

def c10Param : Param := ⟨"tenant_name", some Hint.plainHint, DefaultV.emptyDefault⟩

def c10Target : Target :=
  ⟨[c10Param],
   fun _ kw =>
     match aget kw "tenant_name" with
     | some v => Except.ok v
     | none => Except.error "TypeError: missing tenant_name"⟩

/-- C10 witness: the unmarked, unsupplied, defaultless `tenant_name`
parameter does not make the resolution loop raise — the loop completes with
kwargs not binding it — and the subsequent failure is the target call's
own error, not a resolution error. -/
theorem claim10_witness :
    hatch_target_params c4World 5 [c10Param] [] (st0 []) =
      hatch_target_params c4World 5 [] [] (st0 []) ∧
    aget ([] : List (String × Value)) "tenant_name" = none ∧
    async_wrapper c4World 5 c10Target [] [] =
      (WOut.targetErr "TypeError: missing tenant_name", st0 []) := by
  have hparts := claim10_no_missing_check c4World 5 c10Param (by decide)
  have hh : hatch_target_params c4World 5 c10Target.params []
      (wrapperInit c10Target [] []) = (DOut.ok [], st0 []) := by decide
  refine ⟨hparts.1 [] [] (st0 []),
    hparts.2.1 [c10Param] [] (st0 []) [] (st0 []) (by intro q hq _; simp at hq; rw [hq]; decide)
      rfl hh, ?_⟩
  have hw := hparts.2.2 c10Target [] [] [] (st0 []) hh
  rw [hw]
  decide
